import Mathlib

/-!
Verification of the Colorant_rust targeting engine (src/colorant.rs).

The source computes in IEEE binary32 (`f32`).  We model every `f32` value
exactly as a dyadic rational given by an integer mantissa and exponent
(`F32`), and every arithmetic operation as the exact rational operation
followed by rounding to 24 significant bits with ties to even, which is
exactly the IEEE round-to-nearest-even semantics for the value ranges this
program reaches (no overflow to infinity and no subnormal underflow occurs
for any quantity the program computes).  `F32.val` interprets a model value
as the rational it denotes.  All model arithmetic is integer arithmetic, so
concrete runs are decidable; specification statements use `F32.val` and ℚ.
-/

set_option maxRecDepth 20000

namespace Colorant

/-- Strip factors of two from a mantissa, moving them into the exponent;
fuel-bounded structural recursion. -/
def stripAux : ℕ → ℤ → ℤ → ℤ × ℤ
  | 0, m, e => (m, e)
  | f+1, m, e => if m % 2 = 0 ∧ m ≠ 0 then stripAux f (m / 2) (e + 1) else (m, e)

/-- A binary32 value, represented exactly as the dyadic rational m·2^e.
Operations below always produce the canonical form (m odd, or m = e = 0). -/
structure F32 where
  m : ℤ
  e : ℤ
  deriving DecidableEq, Repr

/-- Canonicalize a dyadic pair into an `F32`. -/
def normF (m e : ℤ) : F32 :=
  if m = 0 then ⟨0, 0⟩ else ⟨(stripAux 64 m e).1, (stripAux 64 m e).2⟩

/-- The rational value denoted by an `F32`. -/
def F32.val (a : F32) : ℚ := (a.m : ℚ) * (2:ℚ) ^ a.e

/-- Round the rational n/d (with d > 0) to the nearest integer, ties to even. -/
def rneInt (n d : ℤ) : ℤ :=
  if 2 * (n % d) < d then n / d
  else if d < 2 * (n % d) then n / d + 1
  else if (n / d) % 2 = 0 then n / d else n / d + 1

/-- Largest j with d·2^j ≤ n, for 0 < d ≤ n; fuel-bounded. -/
def ilogAux : ℕ → ℤ → ℤ → ℕ
  | 0, _, _ => 0
  | f+1, n, d => if n < 2 * d then 0 else ilogAux f n (2 * d) + 1

/-- The j with d ≤ n·2^j < 2d, for 0 < n < 2d; fuel-bounded. -/
def nlogAux : ℕ → ℤ → ℤ → ℕ
  | 0, _, _ => 0
  | f+1, n, d => if d ≤ n then 0 else nlogAux f (2 * n) d + 1

/-- Floor of the base-2 logarithm of n/d, for positive n, d. -/
def flog2 (n d : ℤ) : ℤ :=
  if d ≤ n then (ilogAux 1000 n d : ℤ) else -((nlogAux 1000 n d : ℤ))

/-- Numerator of n/d scaled by 2^(23-e). -/
def scaleS (n d e : ℤ) : ℤ := if 0 ≤ 23 - e then n * 2 ^ (23 - e).toNat else n

/-- Denominator of n/d scaled by 2^(23-e). -/
def scaleD (d e : ℤ) : ℤ := if 0 ≤ 23 - e then d else d * 2 ^ (e - 23).toNat

/-- Round the rational n/d (d > 0) to binary32: scale into [2^23, 2^24],
round to nearest even, and renormalize. -/
def roundQ (n d : ℤ) : F32 :=
  if n = 0 then ⟨0, 0⟩ else
  normF (rneInt (scaleS n d (flog2 n.natAbs d)) (scaleD d (flog2 n.natAbs d)))
    (flog2 n.natAbs d - 23)

/-- Round the dyadic rational n·2^k to binary32. -/
def roundDya (n k : ℤ) : F32 :=
  if 0 ≤ k then roundQ (n * 2 ^ k.toNat) 1 else roundQ n (2 ^ (-k).toNat)

/-- Round n/d to binary32 for any nonzero d. -/
def roundQZ (n d : ℤ) : F32 :=
  if d < 0 then roundQ (-n) (-d) else roundQ n d

/-- An integer converted to binary32 (`as f32`), rounding if above 2^24. -/
def F32.ofIntR (n : ℤ) : F32 := roundQ n 1

/-- Exact binary32 negation. -/
def F32.neg (a : F32) : F32 := ⟨-a.m, a.e⟩

/-- Exact binary32 absolute value. -/
def F32.abs (a : F32) : F32 := ⟨|a.m|, a.e⟩

/-- Binary32 addition: exact sum, then rounding. -/
def F32.add (a b : F32) : F32 :=
  let k := min a.e b.e
  roundDya (a.m * 2 ^ (a.e - k).toNat + b.m * 2 ^ (b.e - k).toNat) k

/-- Binary32 subtraction. -/
def F32.sub (a b : F32) : F32 := F32.add a b.neg

/-- Binary32 multiplication: exact product, then rounding. -/
def F32.mul (a b : F32) : F32 := roundDya (a.m * b.m) (a.e + b.e)

/-- Binary32 division: exact quotient, then rounding (0 when dividing by 0;
the program never divides by zero on the paths we verify). -/
def F32.div (a b : F32) : F32 :=
  if b.m = 0 then ⟨0, 0⟩ else
  if 0 ≤ a.e - b.e then roundQZ (a.m * 2 ^ (a.e - b.e).toNat) b.m
  else roundQZ a.m (b.m * 2 ^ (b.e - a.e).toNat)

/-- Binary32 strict order (value comparison). -/
def F32.lt (a b : F32) : Bool :=
  let k := min a.e b.e
  a.m * 2 ^ (a.e - k).toNat < b.m * 2 ^ (b.e - k).toNat

/-- Binary32 order (value comparison). -/
def F32.le (a b : F32) : Bool :=
  let k := min a.e b.e
  a.m * 2 ^ (a.e - k).toNat ≤ b.m * 2 ^ (b.e - k).toNat

/-- Binary32 equality test (value comparison, as `==` on `f32`). -/
def F32.beqv (a b : F32) : Bool :=
  let k := min a.e b.e
  a.m * 2 ^ (a.e - k).toNat = b.m * 2 ^ (b.e - k).toNat

/-- `f32::max` (both arguments finite, NaN-free in this model). -/
def F32.maxv (a b : F32) : F32 := if F32.lt a b then b else a

/-- `f32::min`. -/
def F32.minv (a b : F32) : F32 := if F32.lt b a then b else a

/-- The zero value. -/
def F32.z : F32 := ⟨0, 0⟩

/-- Rust `as u8` saturating cast from `f32`: truncate toward zero and clamp
to [0, 255]. -/
def F32.toU8sat (a : F32) : ℕ :=
  if a.m < 0 then 0
  else
    (min 255 (if 0 ≤ a.e then a.m * 2 ^ a.e.toNat else a.m / 2 ^ (-a.e).toNat)).toNat

/-- The binary32 value of channel byte c normalized by 255 (`c as f32 / 255.0`). -/
def chan (c : ℕ) : F32 := F32.div (F32.ofIntR c) (F32.ofIntR 255)

/-- The `f32` literal `0.5`. -/
def fHalf : F32 := ⟨1, -1⟩

/-- Configuration (struct `Config`). -/
structure Config where
  x : ℤ
  y : ℤ
  x_fov : ℕ
  y_fov : ℕ
  ingame_sensitivity : F32
  move_speed : F32
  flick_speed : F32
  lower_hsv : ℕ × ℕ × ℕ
  upper_hsv : ℕ × ℕ × ℕ
  deriving DecidableEq, Repr

/-- `impl Default for Config` with the source literals (0.23, 0.435, 4.628
rounded to binary32). -/
def Config.defaultConfig : Config :=
  ⟨0, 0, 75, 75, roundQ 23 100, roundQ 435 1000, roundQ 4628 1000,
    (140, 120, 180), (160, 200, 255)⟩

/-- The `f32` literal `1.07437623`. -/
def flickConstA : F32 := roundQ 107437623 100000000

/-- The `f32` literal `-0.9936827126`. -/
def flickConstB : F32 := (roundQ 9936827126 10000000000).neg

/-- `Config::calculate_speeds`.  `powf` is the platform `f32::powf`, left
abstract because its rounding is not specified by IEEE 754. -/
def calculate_speeds (powf : F32 → F32 → F32) (c : Config) : Config :=
  { c with
    flick_speed := F32.mul flickConstA (powf c.ingame_sensitivity flickConstB),
    move_speed := F32.div (F32.ofIntR 1) (F32.mul (F32.ofIntR 10) c.ingame_sensitivity) }

/-- `rgb_to_hsv_opencv`: OpenCV-style RGB→HSV in binary32, hue halved. -/
def rgb_to_hsv_opencv (r g b : ℕ) : ℕ × ℕ × ℕ :=
  let rf := F32.div (F32.ofIntR r) (F32.ofIntR 255)
  let gf := F32.div (F32.ofIntR g) (F32.ofIntR 255)
  let bf := F32.div (F32.ofIntR b) (F32.ofIntR 255)
  let mx := F32.maxv rf (F32.maxv gf bf)
  let mn := F32.minv rf (F32.minv gf bf)
  let delta := F32.sub mx mn
  let v := F32.toU8sat (F32.mul mx (F32.ofIntR 255))
  let s := if F32.lt F32.z mx then F32.toU8sat (F32.mul (F32.div delta mx) (F32.ofIntR 255)) else 0
  let h :=
    if F32.lt F32.z delta then
      let h0 :=
        if F32.beqv mx rf then F32.mul (F32.ofIntR 60) (F32.div (F32.sub gf bf) delta)
        else if F32.beqv mx gf then
          F32.mul (F32.ofIntR 60) (F32.add (F32.div (F32.sub bf rf) delta) (F32.ofIntR 2))
        else if F32.beqv mx bf then
          F32.mul (F32.ofIntR 60) (F32.add (F32.div (F32.sub rf gf) delta) (F32.ofIntR 4))
        else F32.z
      if F32.lt h0 F32.z then F32.add h0 (F32.ofIntR 360) else h0
    else F32.z
  (F32.toU8sat (F32.div h (F32.ofIntR 2)), s, v)

/-- A captured frame: a width × height grid of RGB byte triples. -/
structure Frame where
  width : ℕ
  height : ℕ
  pix : ℕ → ℕ → ℕ × ℕ × ℕ

/-- The per-pixel HSV window test of `find_target_hsv` (inclusive bounds). -/
def hsvMatch (cfg : Config) (p : ℕ × ℕ × ℕ) : Bool :=
  let hsv := rgb_to_hsv_opencv p.1 p.2.1 p.2.2
  decide (cfg.lower_hsv.1 ≤ hsv.1 ∧ hsv.1 ≤ cfg.upper_hsv.1 ∧
    cfg.lower_hsv.2.1 ≤ hsv.2.1 ∧ hsv.2.1 ≤ cfg.upper_hsv.2.1 ∧
    cfg.lower_hsv.2.2 ≤ hsv.2.2 ∧ hsv.2.2 ≤ cfg.upper_hsv.2.2)

/-- Two-complement wrap of `i64` arithmetic. -/
def wrap64 (z : ℤ) : ℤ := (z + 2 ^ 63) % 2 ^ 64 - 2 ^ 63

/-- Two-complement wrap of an `as i32` cast. -/
def wrap32 (z : ℤ) : ℤ := (z + 2 ^ 31) % 2 ^ 32 - 2 ^ 31

/-- One accumulator step of the scan loop (`total_x/total_y/pixel_count`
are `i64`). -/
def ftStep (cfg : Config) (fr : Frame) (acc : ℤ × ℤ × ℤ) (p : ℕ × ℕ) : ℤ × ℤ × ℤ :=
  if hsvMatch cfg (fr.pix p.1 p.2) then
    (wrap64 (acc.1 + p.1), wrap64 (acc.2.1 + p.2), wrap64 (acc.2.2 + 1))
  else acc

/-- The nested scan loop of `find_target_hsv`: `for y in 0..height { for x
in 0..width { ... } }`. -/
def scanFrame (cfg : Config) (fr : Frame) : ℤ × ℤ × ℤ :=
  (List.range fr.height).foldl (fun acc y =>
    (List.range fr.width).foldl (fun acc2 x => ftStep cfg fr acc2 (x, y)) acc) (0, 0, 0)

/-- `find_target_hsv`: centroid of matching pixels when strictly more than 50
match; `i64` division truncates toward zero, and the averages are cast
`as i32`. -/
def find_target_hsv (cfg : Config) (fr : Frame) : Option (ℤ × ℤ) :=
  let t := scanFrame cfg fr
  if 50 < t.2.2 then some (wrap32 (Int.tdiv t.1 t.2.2), wrap32 (Int.tdiv t.2.1 t.2.2))
  else none

/-- All pixel coordinates of a frame, in scan order. -/
def pixList (fr : Frame) : List (ℕ × ℕ) :=
  (List.range fr.height).flatMap (fun y => (List.range fr.width).map (fun x => (x, y)))

/-- The matching pixels of a frame. -/
def matchedPixels (cfg : Config) (fr : Frame) : List (ℕ × ℕ) :=
  (pixList fr).filter (fun p => hsvMatch cfg (fr.pix p.1 p.2))

/-- Number of matching pixels. -/
def matchCount (cfg : Config) (fr : Frame) : ℕ := (matchedPixels cfg fr).length

/-- Sum of the x coordinates of matching pixels. -/
def sumX (cfg : Config) (fr : Frame) : ℕ := ((matchedPixels cfg fr).map Prod.fst).sum

/-- Sum of the y coordinates of matching pixels. -/
def sumY (cfg : Config) (fr : Frame) : ℕ := ((matchedPixels cfg fr).map Prod.snd).sum

/-- Commands sent to the output device (`ArduinoMouse`). -/
inductive Cmd where
  | moveCmd (dx dy : F32)
  | clickCmd
  | flickCmd (dx dy : F32)
  deriving DecidableEq, Repr

/-- `enum Action`. -/
inductive Action where
  | Move
  | Click
  | Flick
  deriving DecidableEq, Repr

/-- `target_x as f32 - (x_fov as f32 / 2.0)`. -/
def xdiff (cfg : Config) (tx : ℤ) : F32 :=
  F32.sub (F32.ofIntR tx) (F32.div (F32.ofIntR cfg.x_fov) (F32.ofIntR 2))

/-- `target_y as f32 - (y_fov as f32 / 2.0)`. -/
def ydiff (cfg : Config) (ty : ℤ) : F32 :=
  F32.sub (F32.ofIntR ty) (F32.div (F32.ofIntR cfg.y_fov) (F32.ofIntR 2))

/-- The device-command sequence each `Action` branch of `process_action`
attempts for a detected target at (tx, ty). -/
def plannedCmds (cfg : Config) (action : Action) (tx ty : ℤ) : List Cmd :=
  match action with
  | .Move =>
    [Cmd.moveCmd (F32.mul (xdiff cfg tx) cfg.move_speed)
      (F32.mul (ydiff cfg ty) cfg.move_speed)]
  | .Click =>
    if F32.le (F32.abs (xdiff cfg tx)) (F32.ofIntR 4) &&
        F32.le (F32.abs (ydiff cfg ty)) (F32.ofIntR 10)
    then [Cmd.clickCmd] else []
  | .Flick =>
    [Cmd.flickCmd (F32.mul (xdiff cfg tx) cfg.flick_speed)
      (F32.mul (ydiff cfg ty) cfg.flick_speed),
     Cmd.clickCmd,
     Cmd.flickCmd (F32.mul (F32.mul (xdiff cfg tx) cfg.flick_speed).neg fHalf)
      (F32.mul (F32.mul (ydiff cfg ty) cfg.flick_speed).neg fHalf)]

/-- Issue commands in order against a device oracle; each `await?` aborts the
rest of the sequence on the first failure. -/
def issueAll (resp : ℕ → Bool) : List Cmd → ℕ → Except Unit Unit × List Cmd
  | [], _ => (Except.ok (), [])
  | c :: cs, k =>
    if resp k then
      ((issueAll resp cs (k + 1)).1, c :: (issueAll resp cs (k + 1)).2)
    else (Except.error (), [c])

instance : DecidableEq (Except Unit Unit) := fun a b =>
  match a, b with
  | Except.ok (), Except.ok () => isTrue rfl
  | Except.error (), Except.error () => isTrue rfl
  | Except.ok (), Except.error () => isFalse (fun h => Except.noConfusion h)
  | Except.error (), Except.ok () => isFalse (fun h => Except.noConfusion h)

/-- Result of one `process_action` cycle: the returned `Result`, the commands
actually issued, and whether a frame was requested from the capture. -/
structure CycleResult where
  result : Except Unit Unit
  cmds : List Cmd
  frameRequested : Bool
  deriving DecidableEq, Repr

/-- `process_action`: one cycle.  `toggled` is the engine flag, `fr?` the
frame the capture returns within the timeout (None on timeout), `resp` the
success oracle of the output device. -/
def process_action (cfg : Config) (toggled : Bool) (fr? : Option Frame) (action : Action)
    (resp : ℕ → Bool) : CycleResult :=
  if toggled = false then ⟨Except.ok (), [], false⟩
  else
    match fr? with
    | none => ⟨Except.ok (), [], true⟩
    | some fr =>
      match find_target_hsv cfg fr with
      | none => ⟨Except.ok (), [], true⟩
      | some (tx, ty) =>
        ⟨(issueAll resp (plannedCmds cfg action tx ty) 0).1,
         (issueAll resp (plannedCmds cfg action tx ty) 0).2, true⟩

/-- Engine state: the configuration, the toggle flag, and instrumentation
counters for the calls the engine makes on its collaborators. -/
structure Engine where
  config : Config
  toggled : Bool
  resumeCount : ℕ
  pauseCount : ℕ
  stopCount : ℕ
  closeCount : ℕ
  deriving DecidableEq, Repr

/-- `ColorantEngine::new`: derives the speeds when either is the 0.0
sentinel (`==` on f32), then stores the configuration for good. -/
def ColorantEngine.new (powf : F32 → F32 → F32) (config : Config) : Engine :=
  ⟨if F32.beqv config.move_speed F32.z || F32.beqv config.flick_speed F32.z
    then calculate_speeds powf config else config,
   false, 0, 0, 0, 0⟩

/-- `toggle`: flip the flag, then resume or pause the capture accordingly. -/
def toggle (e : Engine) : Engine :=
  if !e.toggled then
    { e with toggled := true, resumeCount := e.resumeCount + 1 }
  else
    { e with toggled := false, pauseCount := e.pauseCount + 1 }

/-- `close`: stop the capture and close the mouse (no guard flag). -/
def close (e : Engine) : Engine :=
  { e with stopCount := e.stopCount + 1, closeCount := e.closeCount + 1 }

/-- `Drop for ColorantEngine` calls `close`. -/
def dropEngine (e : Engine) : Engine := close e

/-- n toggle calls in a row. -/
def toggleN : ℕ → Engine → Engine
  | 0, e => e
  | n + 1, e => toggle (toggleN n e)

/-- The operations an external driver can invoke on a live engine. -/
inductive Op where
  | toggleOp
  | closeOp
  | cycleOp (fr? : Option Frame) (action : Action) (resp : ℕ → Bool)

/-- Run one operation.  A cycle reads the engine (its config and flag) but
never writes any engine field. -/
def runOp (e : Engine) : Op → Engine
  | .toggleOp => toggle e
  | .closeOp => close e
  | .cycleOp _ _ _ => e

/-- Run a list of operations. -/
def runOps (e : Engine) : List Op → Engine
  | [] => e
  | op :: ops => runOps (runOp e op) ops

/-! ### Concrete test fixtures -/

/-- A configuration whose HSV window accepts every pixel. -/
def cfgAll : Config :=
  ⟨0, 0, 8, 8, F32.ofIntR 1, F32.ofIntR 1, F32.ofIntR 1, (0, 0, 0), (180, 255, 255)⟩

/-- A configuration whose HSV window (hue ≥ 10) rejects black pixels. -/
def cfgNone : Config :=
  ⟨0, 0, 8, 8, F32.ofIntR 1, F32.ofIntR 1, F32.ofIntR 1, (10, 0, 0), (180, 255, 255)⟩

/-- An 8×8 all-black frame. -/
def frame8 : Frame := ⟨8, 8, fun _ _ => (0, 0, 0)⟩

/-- A 1×1 all-black frame. -/
def frame1 : Frame := ⟨1, 1, fun _ _ => (0, 0, 0)⟩

/-- The f32 hue value computed by `rgb_to_hsv_opencv` before the final
halving and byte conversion. -/
def hueRawF32 (r g b : ℕ) : F32 :=
  let rf := F32.div (F32.ofIntR r) (F32.ofIntR 255)
  let gf := F32.div (F32.ofIntR g) (F32.ofIntR 255)
  let bf := F32.div (F32.ofIntR b) (F32.ofIntR 255)
  let mx := F32.maxv rf (F32.maxv gf bf)
  let mn := F32.minv rf (F32.minv gf bf)
  let delta := F32.sub mx mn
  if F32.lt F32.z delta then
    let h0 :=
      if F32.beqv mx rf then F32.mul (F32.ofIntR 60) (F32.div (F32.sub gf bf) delta)
      else if F32.beqv mx gf then
        F32.mul (F32.ofIntR 60) (F32.add (F32.div (F32.sub bf rf) delta) (F32.ofIntR 2))
      else if F32.beqv mx bf then
        F32.mul (F32.ofIntR 60) (F32.add (F32.div (F32.sub rf gf) delta) (F32.ofIntR 4))
      else F32.z
    if F32.lt h0 F32.z then F32.add h0 (F32.ofIntR 360) else h0
  else F32.z

/-- Saturation as the spec words it: with the channels normalized to [0,1],
`s = round(delta / max * 255)` if `max > 0`, else 0 — exact rational
arithmetic, rounded to the nearest integer.  Modelled from the spec's words
for comparison with the code's truncating computation. -/
def s_round_spec (r g b : ℕ) : ℤ :=
  if 0 < max (r / 255 : ℚ) (max (g / 255 : ℚ) (b / 255 : ℚ)) then
    round ((max (r / 255 : ℚ) (max (g / 255 : ℚ) (b / 255 : ℚ)) -
        min (r / 255 : ℚ) (min (g / 255 : ℚ) (b / 255 : ℚ))) /
      max (r / 255 : ℚ) (max (g / 255 : ℚ) (b / 255 : ℚ)) * 255)
  else 0

example : F32.ofIntR 2 = ⟨1, 1⟩ := by decide

example : F32.ofIntR 255 = ⟨255, 0⟩ := by decide

example : F32.div (F32.ofIntR 7) (F32.ofIntR 255) = ⟨14737633, -29⟩ := by decide

example : F32.toU8sat (F32.mul (F32.div (F32.ofIntR 200) (F32.ofIntR 255)) (F32.ofIntR 255)) = 200 := by decide

example : F32.sub (F32.ofIntR 3) (F32.div (F32.ofIntR 8) (F32.ofIntR 2)) = ⟨-1, 0⟩ := by decide

/-! ### Value lemmas for the binary32 model -/

theorem stripAux_spec : ∀ (f : ℕ) (m e : ℤ), m ≠ 0 → m.natAbs < 2 ^ f →
    (stripAux f m e).1 ≠ 0 ∧ (stripAux f m e).1 % 2 = 1 ∧
    ((stripAux f m e).1 : ℚ) * 2 ^ (stripAux f m e).2 = (m : ℚ) * 2 ^ e ∧
    (stripAux f m e).1.natAbs ≤ m.natAbs := by
  intro f
  induction f with
  | zero =>
    intro m e hm hsz
    simp only [pow_zero] at hsz
    omega
  | succ f ih =>
    intro m e hm hsz
    by_cases h : m % 2 = 0 ∧ m ≠ 0
    · have hstep : stripAux (f + 1) m e = stripAux f (m / 2) (e + 1) := by
        simp only [stripAux]
        rw [if_pos h]
      have hm2 : m = 2 * (m / 2) := by omega
      have hm' : m / 2 ≠ 0 := by omega
      have habs : m.natAbs = 2 * (m / 2).natAbs := by omega
      have hsz' : (m / 2).natAbs < 2 ^ f := by
        have : (2:ℕ) ^ (f + 1) = 2 * 2 ^ f := by ring
        omega
      obtain ⟨h1, h2, h3, h4⟩ := ih (m / 2) (e + 1) hm' hsz'
      refine ⟨by rw [hstep]; exact h1, by rw [hstep]; exact h2, ?_, ?_⟩
      · rw [hstep, h3, zpow_add_one₀ (two_ne_zero)]
        have hq : ((m : ℚ)) = 2 * ((m / 2 : ℤ) : ℚ) := by
          exact_mod_cast congrArg (fun z : ℤ => (z : ℚ)) hm2
        rw [hq]
        ring
      · rw [hstep]
        omega
    · have hstep : stripAux (f + 1) m e = (m, e) := by
        simp only [stripAux]
        rw [if_neg h]
      rw [hstep]
      refine ⟨hm, by omega, rfl, le_refl _⟩

theorem normF_val (m e : ℤ) (hsz : m.natAbs < 2 ^ 64) :
    (normF m e).val = (m : ℚ) * 2 ^ e := by
  unfold normF
  by_cases hm : m = 0
  · simp [hm, F32.val]
  · obtain ⟨h1, h2, h3, h4⟩ := stripAux_spec 64 m e hm hsz
    simp only [if_neg hm]
    exact h3

theorem normF_odd (m e : ℤ) (hm : m ≠ 0) (hsz : m.natAbs < 2 ^ 64) :
    (normF m e).m ≠ 0 ∧ (normF m e).m % 2 = 1 ∧ (normF m e).m.natAbs ≤ m.natAbs := by
  unfold normF
  obtain ⟨h1, h2, h3, h4⟩ := stripAux_spec 64 m e hm hsz
  simp only [if_neg hm]
  exact ⟨h1, h2, h4⟩

theorem two_zpow_pos (k : ℤ) : (0:ℚ) < 2 ^ k :=
  zpow_pos (by norm_num) k

theorem scaled_cast (m e k : ℤ) (h : k ≤ e) :
    ((m * 2 ^ (e - k).toNat : ℤ) : ℚ) = (m : ℚ) * 2 ^ e * 2 ^ (-k) := by
  push_cast
  rw [← zpow_natCast (2 : ℚ) (e - k).toNat, Int.toNat_of_nonneg (by omega)]
  rw [show e - k = e + -k by ring, zpow_add₀ (two_ne_zero : (2:ℚ) ≠ 0)]
  ring

theorem F32.le_val (a b : F32) : (F32.le a b = true) ↔ a.val ≤ b.val := by
  have ha := scaled_cast a.m a.e (min a.e b.e) (min_le_left _ _)
  have hb := scaled_cast b.m b.e (min a.e b.e) (min_le_right _ _)
  unfold F32.le F32.val
  rw [decide_eq_true_eq]
  constructor
  · intro h
    have h2 : ((a.m * 2 ^ (a.e - min a.e b.e).toNat : ℤ) : ℚ) ≤
        ((b.m * 2 ^ (b.e - min a.e b.e).toNat : ℤ) : ℚ) := by exact_mod_cast h
    rw [ha, hb] at h2
    exact le_of_mul_le_mul_right h2 (two_zpow_pos _)
  · intro h
    have h2 : ((a.m * 2 ^ (a.e - min a.e b.e).toNat : ℤ) : ℚ) ≤
        ((b.m * 2 ^ (b.e - min a.e b.e).toNat : ℤ) : ℚ) := by
      rw [ha, hb]
      exact mul_le_mul_of_nonneg_right h (le_of_lt (two_zpow_pos _))
    exact_mod_cast h2

theorem F32.lt_val (a b : F32) : (F32.lt a b = true) ↔ a.val < b.val := by
  have ha := scaled_cast a.m a.e (min a.e b.e) (min_le_left _ _)
  have hb := scaled_cast b.m b.e (min a.e b.e) (min_le_right _ _)
  unfold F32.lt F32.val
  rw [decide_eq_true_eq]
  constructor
  · intro h
    have h2 : ((a.m * 2 ^ (a.e - min a.e b.e).toNat : ℤ) : ℚ) <
        ((b.m * 2 ^ (b.e - min a.e b.e).toNat : ℤ) : ℚ) := by exact_mod_cast h
    rw [ha, hb] at h2
    exact lt_of_mul_lt_mul_right h2 (le_of_lt (two_zpow_pos _))
  · intro h
    have h2 : ((a.m * 2 ^ (a.e - min a.e b.e).toNat : ℤ) : ℚ) <
        ((b.m * 2 ^ (b.e - min a.e b.e).toNat : ℤ) : ℚ) := by
      rw [ha, hb]
      exact mul_lt_mul_of_pos_right h (two_zpow_pos _)
    exact_mod_cast h2

theorem F32.beqv_val (a b : F32) : (F32.beqv a b = true) ↔ a.val = b.val := by
  have ha := scaled_cast a.m a.e (min a.e b.e) (min_le_left _ _)
  have hb := scaled_cast b.m b.e (min a.e b.e) (min_le_right _ _)
  unfold F32.beqv F32.val
  rw [decide_eq_true_eq]
  constructor
  · intro h
    have h2 : ((a.m * 2 ^ (a.e - min a.e b.e).toNat : ℤ) : ℚ) =
        ((b.m * 2 ^ (b.e - min a.e b.e).toNat : ℤ) : ℚ) := by exact_mod_cast h
    rw [ha, hb] at h2
    exact mul_right_cancel₀ (ne_of_gt (two_zpow_pos _)) h2
  · intro h
    have h2 : ((a.m * 2 ^ (a.e - min a.e b.e).toNat : ℤ) : ℚ) =
        ((b.m * 2 ^ (b.e - min a.e b.e).toNat : ℤ) : ℚ) := by
      rw [ha, hb, h]
    exact_mod_cast h2

theorem F32.neg_val (a : F32) : a.neg.val = -a.val := by
  unfold F32.neg F32.val
  push_cast
  ring

theorem F32.abs_val (a : F32) : a.abs.val = |a.val| := by
  unfold F32.abs F32.val
  rw [abs_mul, abs_of_pos (two_zpow_pos _)]
  push_cast
  ring

theorem F32.maxv_val (a b : F32) : (F32.maxv a b).val = max a.val b.val := by
  unfold F32.maxv
  by_cases h : F32.lt a b = true
  · rw [if_pos h, max_eq_right (le_of_lt ((F32.lt_val a b).mp h))]
  · rw [if_neg h, max_eq_left]
    have := (F32.lt_val a b).not
    simp only [h] at this
    have hle := this.mp (by simp)
    exact le_of_not_lt hle

theorem F32.minv_val (a b : F32) : (F32.minv a b).val = min a.val b.val := by
  unfold F32.minv
  by_cases h : F32.lt b a = true
  · rw [if_pos h, min_eq_right (le_of_lt ((F32.lt_val b a).mp h))]
  · rw [if_neg h, min_eq_left]
    have := (F32.lt_val b a).not
    simp only [h] at this
    have hle := this.mp (by simp)
    exact le_of_not_lt hle

/-! ### Correctness of the scaling logarithm and the integer rounder -/

theorem ilogAux_spec : ∀ (f : ℕ) (n d : ℤ), 0 < d → d ≤ n → n < 2 ^ f * d →
    2 ^ ilogAux f n d * d ≤ n ∧ n < 2 ^ (ilogAux f n d + 1) * d := by
  intro f
  induction f with
  | zero =>
    intro n d hd hdn hn
    rw [pow_zero, one_mul] at hn
    omega
  | succ f ih =>
    intro n d hd hdn hn
    by_cases h : n < 2 * d
    · have hstep : ilogAux (f + 1) n d = 0 := by
        simp only [ilogAux]
        rw [if_pos h]
      rw [hstep]
      constructor
      · rw [pow_zero, one_mul]
        exact hdn
      · rw [zero_add, pow_one]
        exact h
    · have hstep : ilogAux (f + 1) n d = ilogAux f n (2 * d) + 1 := by
        simp only [ilogAux]
        rw [if_neg h]
      have hn' : n < 2 ^ f * (2 * d) := by
        have : (2:ℤ) ^ (f + 1) * d = 2 ^ f * (2 * d) := by ring
        omega
      obtain ⟨h1, h2⟩ := ih n (2 * d) (by omega) (by omega) hn'
      rw [hstep]
      constructor
      · calc 2 ^ (ilogAux f n (2 * d) + 1) * d = 2 ^ ilogAux f n (2 * d) * (2 * d) := by ring
        _ ≤ n := h1
      · calc n < 2 ^ (ilogAux f n (2 * d) + 1) * (2 * d) := h2
        _ = 2 ^ (ilogAux f n (2 * d) + 1 + 1) * d := by ring

theorem nlogAux_spec : ∀ (f : ℕ) (n d : ℤ), 0 < n → n < 2 * d → d ≤ 2 ^ f * n →
    d ≤ 2 ^ nlogAux f n d * n ∧ 2 ^ nlogAux f n d * n < 2 * d := by
  intro f
  induction f with
  | zero =>
    intro n d hn hnd hd
    rw [pow_zero, one_mul] at hd
    have hres : nlogAux 0 n d = 0 := rfl
    rw [hres, pow_zero, one_mul]
    exact ⟨hd, hnd⟩
  | succ f ih =>
    intro n d hn hnd hd
    by_cases h : d ≤ n
    · have hstep : nlogAux (f + 1) n d = 0 := by
        simp only [nlogAux]
        rw [if_pos h]
      rw [hstep, pow_zero, one_mul]
      exact ⟨h, hnd⟩
    · have hstep : nlogAux (f + 1) n d = nlogAux f (2 * n) d + 1 := by
        simp only [nlogAux]
        rw [if_neg h]
      have hd' : d ≤ 2 ^ f * (2 * n) := by
        have : (2:ℤ) ^ (f + 1) * n = 2 ^ f * (2 * n) := by ring
        omega
      obtain ⟨h1, h2⟩ := ih (2 * n) d (by omega) (by omega) hd'
      rw [hstep]
      constructor
      · calc (d:ℤ) ≤ 2 ^ nlogAux f (2 * n) d * (2 * n) := h1
        _ = 2 ^ (nlogAux f (2 * n) d + 1) * n := by ring
      · calc 2 ^ (nlogAux f (2 * n) d + 1) * n = 2 ^ nlogAux f (2 * n) d * (2 * n) := by ring
        _ < 2 * d := h2

theorem zpow_natCast_q (j : ℕ) : (2:ℚ) ^ (j : ℤ) = 2 ^ j := zpow_natCast 2 j

theorem flog2_spec (n d : ℤ) (hn : 0 < n) (hd : 0 < d)
    (h1 : n < 2 ^ 1000 * d) (h2 : d ≤ 2 ^ 1000 * n) :
    (2:ℚ) ^ flog2 n d ≤ (n:ℚ) / d ∧ (n:ℚ) / d < (2:ℚ) ^ (flog2 n d + 1) := by
  have hdq : (0:ℚ) < (d:ℚ) := by exact_mod_cast hd
  by_cases h : d ≤ n
  · have hres : flog2 n d = (ilogAux 1000 n d : ℤ) := by
      unfold flog2
      rw [if_pos h]
    obtain ⟨hl, hr⟩ := ilogAux_spec 1000 n d hd h h1
    have hlq : ((2:ℚ) ^ ilogAux 1000 n d) * d ≤ n := by exact_mod_cast hl
    have hrq : (n:ℚ) < (2 ^ (ilogAux 1000 n d + 1)) * d := by exact_mod_cast hr
    rw [hres]
    constructor
    · rw [le_div_iff hdq, zpow_natCast_q]
      exact hlq
    · rw [div_lt_iff hdq]
      rw [show (ilogAux 1000 n d : ℤ) + 1 = ((ilogAux 1000 n d + 1 : ℕ) : ℤ) by push_cast; ring]
      rw [zpow_natCast_q]
      exact hrq
  · have hnd : n < 2 * d := by omega
    have hres : flog2 n d = -(nlogAux 1000 n d : ℤ) := by
      unfold flog2
      rw [if_neg h]
    obtain ⟨hl, hr⟩ := nlogAux_spec 1000 n d hn hnd h2
    have hlq : (d:ℚ) ≤ (2 ^ nlogAux 1000 n d) * n := by exact_mod_cast hl
    have hrq : ((2:ℚ) ^ nlogAux 1000 n d) * n < 2 * d := by exact_mod_cast hr
    have hp : (0:ℚ) < 2 ^ nlogAux 1000 n d := by positivity
    rw [hres]
    constructor
    · rw [le_div_iff hdq, zpow_neg, zpow_natCast_q]
      rw [inv_mul_le_iff hp]
      linarith
    · rw [div_lt_iff hdq]
      rw [show -(nlogAux 1000 n d : ℤ) + 1 = -((nlogAux 1000 n d : ℤ) - 1) by ring]
      rw [zpow_neg]
      rw [lt_inv_mul_iff₀ (two_zpow_pos _)]
      have hz : (2:ℚ) ^ ((nlogAux 1000 n d : ℤ) - 1) * (2:ℚ) = 2 ^ (nlogAux 1000 n d : ℤ) := by
        rw [← zpow_add_one₀ (two_ne_zero : (2:ℚ) ≠ 0)]
        ring_nf
      have hkey : 2 * ((2:ℚ) ^ ((nlogAux 1000 n d : ℤ) - 1) * n) = (2 ^ nlogAux 1000 n d) * n := by
        rw [← zpow_natCast_q, ← hz]
        ring
      linarith

theorem rneInt_range (n d : ℤ) (hd : 0 < d) :
    n / d ≤ rneInt n d ∧ rneInt n d ≤ n / d + 1 := by
  unfold rneInt
  split_ifs <;> omega

theorem rneInt_bounds (n d : ℤ) (hd : 0 < d) :
    2 * n - d ≤ 2 * d * rneInt n d ∧ 2 * d * rneInt n d ≤ 2 * n + d := by
  unfold rneInt
  split_ifs <;> constructor <;> nlinarith [Int.emod_add_ediv n d, Int.emod_nonneg n (by omega : d ≠ 0), Int.emod_lt_of_pos n hd]

theorem rneInt_exact (n d : ℤ) (hd : 0 < d) (hdvd : n % d = 0) :
    rneInt n d = n / d ∧ d * (n / d) = n := by
  have h1 := Int.emod_add_ediv n d
  unfold rneInt
  split_ifs <;> constructor <;> omega

/-! ### The rounding function: value bridge, exactness, monotonicity -/

theorem natAbs_cast_div (n d : ℤ) (hd : 0 < d) :
    ((n.natAbs : ℤ) : ℚ) / d = |(n : ℚ) / d| := by
  rw [abs_div, abs_of_pos (by exact_mod_cast hd : (0:ℚ) < (d:ℚ))]
  congr 1
  push_cast [Int.cast_natAbs]
  rfl

theorem rneInt_abs_le (S dd : ℤ) (hd : 0 < dd) (h : |(S : ℚ) / dd| < 2 ^ 24) :
    (rneInt S dd).natAbs ≤ 2 ^ 24 := by
  have hdq : (0:ℚ) < (dd:ℚ) := by exact_mod_cast hd
  have hS : (S.natAbs : ℤ) < 2 ^ 24 * dd := by
    have h1 : |(S:ℚ)| < 2 ^ 24 * dd := by
      rw [abs_div, abs_of_pos hdq] at h
      exact (div_lt_iff₀ hdq).mp h
    have h2 : ((S.natAbs : ℤ) : ℚ) < ((2 ^ 24 * dd : ℤ) : ℚ) := by
      push_cast [Int.cast_natAbs]
      exact_mod_cast h1
    exact_mod_cast h2
  obtain ⟨hb1, hb2⟩ := rneInt_bounds S dd hd
  have hcancel1 : 2 * rneInt S dd < 2 ^ 25 + 1 := by
    have : 2 * dd * rneInt S dd < (2 ^ 25 + 1) * dd := by
      have : (S.natAbs : ℤ) < 2 ^ 24 * dd := hS
      omega
    nlinarith
  have hcancel2 : -(2 ^ 25 + 1) < 2 * rneInt S dd := by
    have : -((2 ^ 25 + 1) * dd) < 2 * dd * rneInt S dd := by
      omega
    nlinarith
  omega

theorem scaleD_pos (d e : ℤ) (hd : 0 < d) : 0 < scaleD d e := by
  unfold scaleD
  split_ifs
  · exact hd
  · positivity

theorem scale_ratio (n d e : ℤ) (hd : 0 < d) :
    ((scaleS n d e : ℤ) : ℚ) / ((scaleD d e : ℤ) : ℚ) = (n : ℚ) / d * 2 ^ (23 - e) := by
  unfold scaleS scaleD
  split_ifs with hc
  · push_cast
    rw [← zpow_natCast (2:ℚ) (23 - e).toNat, Int.toNat_of_nonneg hc]
    ring
  · have h23 : ((e - 23).toNat : ℤ) = e - 23 := Int.toNat_of_nonneg (by omega)
    push_cast
    rw [← zpow_natCast (2:ℚ) (e - 23).toNat, h23]
    rw [show (23:ℤ) - e = -(e - 23) by ring, zpow_neg]
    rw [div_mul_eq_div_div_swap, div_div]
    ring_nf

theorem two_zpow_lt_iff {a b : ℤ} : (2:ℚ) ^ a < 2 ^ b ↔ a < b := by
  constructor
  · intro h
    by_contra hab
    have hba : b ≤ a := by omega
    have := zpow_le_zpow_right₀ (by norm_num : (1:ℚ) ≤ 2) hba
    linarith
  · intro h
    have h1 : (2:ℚ) ^ a * 1 < 2 ^ a * 2 ^ (b - a) := by
      have hba : (0:ℤ) < b - a := by omega
      have : (1:ℚ) < 2 ^ (b - a) := by
        calc (1:ℚ) = 2 ^ (0:ℤ) := by norm_num
        _ < 2 ^ (b - a) := by
            apply zpow_lt_zpow_right₀ (by norm_num : (1:ℚ) < 2)
            omega
      exact mul_lt_mul_of_pos_left this (two_zpow_pos a)
    rw [mul_one, ← zpow_add₀ (two_ne_zero : (2:ℚ) ≠ 0)] at h1
    rw [show a + (b - a) = b by ring] at h1
    exact h1

theorem two_zpow_le_iff {a b : ℤ} : (2:ℚ) ^ a ≤ 2 ^ b ↔ a ≤ b := by
  constructor
  · intro h
    by_contra hab
    have : (2:ℚ) ^ b < 2 ^ a := two_zpow_lt_iff.mpr (by omega)
    linarith
  · intro h
    rcases eq_or_lt_of_le h with rfl | h
    · exact le_refl _
    · exact le_of_lt (two_zpow_lt_iff.mpr h)

theorem rneInt_lower_of_big (S dd : ℤ) (hd : 0 < dd) (h : (2:ℚ) ^ 23 ≤ (S : ℚ) / dd) :
    2 ^ 23 ≤ rneInt S dd := by
  have hdq : (0:ℚ) < (dd:ℚ) := by exact_mod_cast hd
  have hS : (2:ℤ) ^ 23 * dd ≤ S := by
    have h1 : (2:ℚ) ^ 23 * dd ≤ S := by
      rw [le_div_iff₀ hdq] at h
      linarith
    exact_mod_cast h1
  obtain ⟨hb1, hb2⟩ := rneInt_bounds S dd hd
  have hc : (2 ^ 24 - 1) * dd ≤ 2 * dd * rneInt S dd := by nlinarith
  nlinarith

theorem rneInt_upper_of_neg_big (S dd : ℤ) (hd : 0 < dd) (h : (S : ℚ) / dd ≤ -(2:ℚ) ^ 23) :
    rneInt S dd ≤ -(2 ^ 23) := by
  have hdq : (0:ℚ) < (dd:ℚ) := by exact_mod_cast hd
  have hS : S ≤ -((2:ℤ) ^ 23 * dd) := by
    have h1 : (S:ℚ) ≤ -(2 ^ 23 * dd) := by
      rw [div_le_iff₀ hdq] at h
      linarith
    exact_mod_cast h1
  obtain ⟨hb1, hb2⟩ := rneInt_bounds S dd hd
  have hc : 2 * dd * rneInt S dd ≤ -((2 ^ 24 - 1) * dd) := by nlinarith
  nlinarith

theorem roundQ_val (n d : ℤ) (hd : 0 < d) (hn : n ≠ 0)
    (hup : (n.natAbs : ℤ) < 2 ^ 1000 * d) (hlo : d ≤ 2 ^ 1000 * (n.natAbs : ℤ)) :
    (roundQ n d).val =
      (rneInt (scaleS n d (flog2 n.natAbs d)) (scaleD d (flog2 n.natAbs d)) : ℚ) *
        2 ^ (flog2 n.natAbs d - 23) ∧
    (rneInt (scaleS n d (flog2 n.natAbs d)) (scaleD d (flog2 n.natAbs d))).natAbs ≤ 2 ^ 24 ∧
    2 ^ 23 ≤ (rneInt (scaleS n d (flog2 n.natAbs d)) (scaleD d (flog2 n.natAbs d))).natAbs ∧
    (0 < n → 2 ^ 23 ≤ rneInt (scaleS n d (flog2 n.natAbs d)) (scaleD d (flog2 n.natAbs d))) ∧
    (n < 0 → rneInt (scaleS n d (flog2 n.natAbs d)) (scaleD d (flog2 n.natAbs d)) ≤ -2 ^ 23) := by
  have hna : (0:ℤ) < (n.natAbs : ℤ) := by
    have := Int.natAbs_pos.mpr hn
    exact_mod_cast this
  obtain ⟨hsl, hsr⟩ := flog2_spec (n.natAbs : ℤ) d hna hd hup hlo
  rw [natAbs_cast_div n d hd] at hsl hsr
  set e := flog2 n.natAbs d with he
  have hdd := scaleD_pos d e hd
  have hratio := scale_ratio n d e hd
  have habs : |(scaleS n d e : ℚ) / (scaleD d e : ℚ)| = |(n:ℚ)/d| * 2 ^ (23 - e) := by
    rw [hratio, abs_mul, abs_of_pos (two_zpow_pos _)]
  have h24 : (2:ℚ) ^ (e + 1) * 2 ^ (23 - e) = 2 ^ (24:ℕ) := by
    rw [← zpow_add₀ (two_ne_zero : (2:ℚ) ≠ 0),
      show e + 1 + (23 - e) = ((24:ℕ):ℤ) by push_cast; ring, zpow_natCast_q]
  have h23 : (2:ℚ) ^ (23:ℕ) = 2 ^ e * 2 ^ (23 - e) := by
    rw [← zpow_add₀ (two_ne_zero : (2:ℚ) ≠ 0),
      show e + (23 - e) = ((23:ℕ):ℤ) by push_cast; ring, zpow_natCast_q]
  have hup24 : |(scaleS n d e : ℚ) / (scaleD d e : ℚ)| < 2 ^ 24 := by
    rw [habs]
    calc |(n:ℚ)/d| * 2 ^ (23 - e) < 2 ^ (e + 1) * 2 ^ (23 - e) :=
          mul_lt_mul_of_pos_right hsr (two_zpow_pos _)
    _ = 2 ^ (24:ℕ) := h24
  have hlow23 : (2:ℚ) ^ 23 ≤ |(scaleS n d e : ℚ) / (scaleD d e : ℚ)| := by
    rw [habs, h23]
    exact mul_le_mul_of_nonneg_right hsl (le_of_lt (two_zpow_pos _))
  have hsz := rneInt_abs_le _ _ hdd hup24
  have hddq : (0:ℚ) < ((scaleD d e : ℤ) : ℚ) := by exact_mod_cast hdd
  have hsign : (0 < n → 2 ^ 23 ≤ rneInt (scaleS n d e) (scaleD d e)) ∧
      (n < 0 → rneInt (scaleS n d e) (scaleD d e) ≤ -2 ^ 23) := by
    constructor
    · intro hpos
      have hSpos : 0 < scaleS n d e := by
        unfold scaleS
        split_ifs
        · exact mul_pos hpos (by positivity)
        · exact hpos
      have hq : (0:ℚ) < (scaleS n d e : ℚ) / (scaleD d e : ℚ) := by
        apply div_pos _ hddq
        exact_mod_cast hSpos
      apply rneInt_lower_of_big _ _ hdd
      rw [abs_of_pos hq] at hlow23
      exact hlow23
    · intro hneg
      have hSneg : scaleS n d e < 0 := by
        unfold scaleS
        split_ifs
        · exact mul_neg_of_neg_of_pos hneg (by positivity)
        · exact hneg
      have hq : (scaleS n d e : ℚ) / (scaleD d e : ℚ) < 0 := by
        apply div_neg_of_neg_of_pos _ hddq
        exact_mod_cast hSneg
      apply rneInt_upper_of_neg_big _ _ hdd
      rw [abs_of_neg hq] at hlow23
      linarith
  have hlow : 2 ^ 23 ≤ (rneInt (scaleS n d e) (scaleD d e)).natAbs := by
    rcases lt_trichotomy n 0 with hc | hc | hc
    · have := hsign.2 hc
      omega
    · exact absurd hc hn
    · have := hsign.1 hc
      omega
  have hroundQ : roundQ n d = normF (rneInt (scaleS n d e) (scaleD d e)) (e - 23) := by
    unfold roundQ
    rw [if_neg hn]
  refine ⟨?_, hsz, hlow, hsign.1, hsign.2⟩
  rw [hroundQ, normF_val _ _ (by omega : (rneInt (scaleS n d e) (scaleD d e)).natAbs < 2 ^ 64)]

theorem rneInt_mono_d (n1 n2 d : ℤ) (hd : 0 < d) (h : n1 ≤ n2) :
    rneInt n1 d ≤ rneInt n2 d := by
  have hq : n1 / d ≤ n2 / d := Int.ediv_le_ediv hd h
  rcases eq_or_lt_of_le hq with heq | hlt
  · have hAB : d * (n1 / d) = d * (n2 / d) := by rw [heq]
    have e1 : d * (n1 / d) + n1 % d = n1 := Int.ediv_add_emod n1 d
    have e2 : d * (n2 / d) + n2 % d = n2 := Int.ediv_add_emod n2 d
    have hr : n1 % d ≤ n2 % d := by linarith
    unfold rneInt
    split_ifs <;> omega
  · obtain ⟨ha1, ha2⟩ := rneInt_range n1 d hd
    obtain ⟨hb1, hb2⟩ := rneInt_range n2 d hd
    omega

theorem goodQ_of_range (n d : ℤ) (hd : 0 < d) (hn : n ≠ 0)
    (hvlo : (2:ℚ) ^ (-720 : ℤ) ≤ |(n:ℚ)/d|) (hvhi : |(n:ℚ)/d| ≤ (2:ℚ) ^ (720:ℤ)) :
    (n.natAbs : ℤ) < 2 ^ 1000 * d ∧ d ≤ 2 ^ 1000 * (n.natAbs : ℤ) := by
  have hdq : (0:ℚ) < (d:ℚ) := by exact_mod_cast hd
  have hkey : ((n.natAbs : ℤ) : ℚ) / d = |(n:ℚ)/d| := natAbs_cast_div n d hd
  constructor
  · have h1 : ((n.natAbs : ℤ) : ℚ) < 2 ^ (1000:ℕ) * d := by
      have h2 : ((n.natAbs : ℤ) : ℚ) ≤ 2 ^ (720:ℤ) * d := by
        rw [← hkey] at hvhi
        calc ((n.natAbs : ℤ) : ℚ) = ((n.natAbs : ℤ) : ℚ) / d * d := by field_simp
        _ ≤ 2 ^ (720:ℤ) * d := mul_le_mul_of_nonneg_right hvhi (le_of_lt hdq)
      have h3 : (2:ℚ) ^ (720:ℤ) * d < 2 ^ (1000:ℕ) * d := by
        apply mul_lt_mul_of_pos_right _ hdq
        calc (2:ℚ) ^ (720:ℤ) < 2 ^ (1000:ℤ) := two_zpow_lt_iff.mpr (by omega)
        _ = 2 ^ (1000:ℕ) := by
            rw [show (1000:ℤ) = ((1000:ℕ):ℤ) by norm_num, zpow_natCast_q]
      linarith
    exact_mod_cast h1
  · have h1 : (d:ℚ) ≤ 2 ^ (1000:ℕ) * ((n.natAbs : ℤ) : ℚ) := by
      have h2 : (d:ℚ) * 2 ^ (-720:ℤ) ≤ ((n.natAbs : ℤ) : ℚ) := by
        rw [← hkey] at hvlo
        calc (d:ℚ) * 2 ^ (-720:ℤ) ≤ (d:ℚ) * (((n.natAbs : ℤ) : ℚ) / d) :=
              mul_le_mul_of_nonneg_left hvlo (le_of_lt hdq)
        _ = ((n.natAbs : ℤ) : ℚ) := by field_simp
      have h3 : (d:ℚ) = 2 ^ (720:ℤ) * ((d:ℚ) * 2 ^ (-720:ℤ)) := by
        rw [show (d:ℚ) * 2 ^ (-720:ℤ) = 2 ^ (-720:ℤ) * d by ring, ← mul_assoc,
          ← zpow_add₀ (two_ne_zero : (2:ℚ) ≠ 0)]
        norm_num
      have hna : (0:ℚ) ≤ ((n.natAbs : ℤ) : ℚ) := by positivity
      have h4 : (2:ℚ) ^ (720:ℤ) ≤ 2 ^ (1000:ℕ) := by
        calc (2:ℚ) ^ (720:ℤ) ≤ 2 ^ (1000:ℤ) := two_zpow_le_iff.mpr (by omega)
        _ = 2 ^ (1000:ℕ) := by
            rw [show (1000:ℤ) = ((1000:ℕ):ℤ) by norm_num, zpow_natCast_q]
      calc (d:ℚ) = 2 ^ (720:ℤ) * ((d:ℚ) * 2 ^ (-720:ℤ)) := h3
      _ ≤ 2 ^ (720:ℤ) * ((n.natAbs : ℤ) : ℚ) :=
          mul_le_mul_of_nonneg_left h2 (le_of_lt (two_zpow_pos _))
      _ ≤ 2 ^ (1000:ℕ) * ((n.natAbs : ℤ) : ℚ) := mul_le_mul_of_nonneg_right h4 hna
    exact_mod_cast h1

theorem roundQ_exact (n d k t : ℤ) (hd : 0 < d)
    (hrep : (n:ℚ)/d = (k:ℚ) * 2 ^ t) (hk : k ≠ 0) (hksz : k.natAbs < 2 ^ 24)
    (hvlo : (2:ℚ) ^ (-720 : ℤ) ≤ |(n:ℚ)/d|) (hvhi : |(n:ℚ)/d| ≤ (2:ℚ) ^ (720:ℤ)) :
    (roundQ n d).val = (n:ℚ)/d := by
  have hdq : (0:ℚ) < (d:ℚ) := by exact_mod_cast hd
  have hn : n ≠ 0 := by
    intro h0
    rw [h0] at hvlo
    simp only [Int.cast_zero, zero_div, abs_zero] at hvlo
    have := two_zpow_pos (-720 : ℤ)
    linarith
  obtain ⟨hup, hlo⟩ := goodQ_of_range n d hd hn hvlo hvhi
  obtain ⟨hval, hsz, hlow, hsp, hsn⟩ := roundQ_val n d hd hn hup hlo
  have hna : (0:ℤ) < (n.natAbs : ℤ) := by
    have := Int.natAbs_pos.mpr hn
    exact_mod_cast this
  obtain ⟨hsl, hsr⟩ := flog2_spec (n.natAbs : ℤ) d hna hd hup hlo
  rw [natAbs_cast_div n d hd] at hsl hsr
  set e := flog2 n.natAbs d with he
  have hkq : (1:ℚ) ≤ |(k:ℚ)| := by
    have : 1 ≤ k.natAbs := by omega
    have h2 : (1:ℚ) ≤ (k.natAbs : ℚ) := by exact_mod_cast this
    rw [Int.cast_natAbs] at h2
    exact_mod_cast h2
  have hkq2 : |(k:ℚ)| < 2 ^ (24:ℕ) := by
    have h2 : (k.natAbs : ℚ) < ((2 ^ 24 : ℕ) : ℚ) := by exact_mod_cast hksz
    rw [Int.cast_natAbs] at h2
    push_cast at h2
    exact_mod_cast h2
  have hvabs : |(n:ℚ)/d| = |(k:ℚ)| * 2 ^ t := by
    rw [hrep, abs_mul, abs_of_pos (two_zpow_pos t)]
  have het : e ≤ t + 23 := by
    have h1 : (2:ℚ) ^ e < 2 ^ (t + 24) := by
      calc (2:ℚ) ^ e ≤ |(n:ℚ)/d| := hsl
      _ = |(k:ℚ)| * 2 ^ t := hvabs
      _ < 2 ^ (24:ℕ) * 2 ^ t := mul_lt_mul_of_pos_right hkq2 (two_zpow_pos t)
      _ = 2 ^ (t + 24) := by
          rw [← zpow_natCast_q 24, ← zpow_add₀ (two_ne_zero : (2:ℚ) ≠ 0)]
          ring_nf
    have := two_zpow_lt_iff.mp h1
    omega
  have hdd := scaleD_pos d e hd
  have hddq : (0:ℚ) < ((scaleD d e : ℤ) : ℚ) := by exact_mod_cast hdd
  have hz : ((k * 2 ^ (t + 23 - e).toNat : ℤ) : ℚ) = (k:ℚ) * 2 ^ (t + 23 - e) := by
    push_cast
    rw [← zpow_natCast (2:ℚ) (t + 23 - e).toNat, Int.toNat_of_nonneg (by omega)]
  have hSval : ((scaleS n d e : ℤ) : ℚ) = ((k * 2 ^ (t + 23 - e).toNat : ℤ) : ℚ) * (scaleD d e : ℚ) := by
    have hr := scale_ratio n d e hd
    rw [div_eq_iff (ne_of_gt hddq)] at hr
    rw [hr, hrep, hz]
    rw [show t + 23 - e = t + (23 - e) by ring, zpow_add₀ (two_ne_zero : (2:ℚ) ≠ 0)]
    ring
  have hSint : scaleS n d e = k * 2 ^ (t + 23 - e).toNat * scaleD d e := by
    exact_mod_cast hSval
  have hmod : scaleS n d e % scaleD d e = 0 := by
    rw [hSint]
    exact Int.mul_emod_left _ _
  obtain ⟨hre, hrd⟩ := rneInt_exact (scaleS n d e) (scaleD d e) hdd hmod
  have hediv : scaleS n d e / scaleD d e = k * 2 ^ (t + 23 - e).toNat := by
    rw [hSint]
    exact Int.mul_ediv_cancel _ (ne_of_gt hdd)
  rw [hval, hre, hediv]
  rw [hz, hrep]
  rw [mul_assoc, ← zpow_add₀ (two_ne_zero : (2:ℚ) ≠ 0)]
  congr 2
  ring

theorem roundQ_repr (n d : ℤ) (hd : 0 < d) (hn : n ≠ 0)
    (hup : (n.natAbs : ℤ) < 2 ^ 1000 * d) (hlo : d ≤ 2 ^ 1000 * (n.natAbs : ℤ)) :
    (roundQ n d).m ≠ 0 ∧ (roundQ n d).m % 2 = 1 ∧ (roundQ n d).m.natAbs < 2 ^ 24 := by
  obtain ⟨hval, hsz, hlow, _, _⟩ := roundQ_val n d hd hn hup hlo
  have hroundQ : roundQ n d = normF (rneInt (scaleS n d (flog2 n.natAbs d)) (scaleD d (flog2 n.natAbs d))) (flog2 n.natAbs d - 23) := by
    unfold roundQ
    rw [if_neg hn]
  obtain ⟨h1, h2, h3⟩ := normF_odd (rneInt (scaleS n d (flog2 n.natAbs d)) (scaleD d (flog2 n.natAbs d))) (flog2 n.natAbs d - 23) (by omega) (by omega)
  rw [hroundQ]
  refine ⟨h1, h2, ?_⟩
  omega

theorem roundQ_mono_d (n1 n2 d : ℤ) (hd : 0 < d) (hn1 : 0 < n1) (h12 : n1 ≤ n2)
    (hup2 : n2 < 2 ^ 900 * d) (hlo1 : d ≤ 2 ^ 900 * n1) :
    (roundQ n1 d).val ≤ (roundQ n2 d).val := by
  have hdq : (0:ℚ) < (d:ℚ) := by exact_mod_cast hd
  have hn2 : 0 < n2 := by omega
  have ha1 : ((n1.natAbs : ℤ)) = n1 := Int.natAbs_of_nonneg (by omega)
  have ha2 : ((n2.natAbs : ℤ)) = n2 := Int.natAbs_of_nonneg (by omega)
  have hup1 : ((n1.natAbs : ℤ)) < 2 ^ 1000 * d := by
    have : (2:ℤ) ^ 900 * d ≤ 2 ^ 1000 * d := by
      apply mul_le_mul_of_nonneg_right _ (by omega)
      norm_num
    omega
  have hup2' : ((n2.natAbs : ℤ)) < 2 ^ 1000 * d := by
    have : (2:ℤ) ^ 900 * d ≤ 2 ^ 1000 * d := by
      apply mul_le_mul_of_nonneg_right _ (by omega)
      norm_num
    omega
  have hlo1' : d ≤ 2 ^ 1000 * ((n1.natAbs : ℤ)) := by
    have : (2:ℤ) ^ 900 * n1 ≤ 2 ^ 1000 * n1 := by
      apply mul_le_mul_of_nonneg_right _ (by omega)
      norm_num
    omega
  have hlo2' : d ≤ 2 ^ 1000 * ((n2.natAbs : ℤ)) := by
    have h1 : (2:ℤ) ^ 900 * n1 ≤ 2 ^ 1000 * n2 := by
      have : (2:ℤ) ^ 900 * n1 ≤ 2 ^ 1000 * n1 := by
        apply mul_le_mul_of_nonneg_right _ (by omega)
        norm_num
      have h2 : (2:ℤ) ^ 1000 * n1 ≤ 2 ^ 1000 * n2 := by
        apply mul_le_mul_of_nonneg_left (by omega) (by positivity)
      omega
    omega
  obtain ⟨hval1, hsz1, hlow1, hsp1, _⟩ := roundQ_val n1 d hd (by omega) hup1 hlo1'
  obtain ⟨hval2, hsz2, hlow2, hsp2, _⟩ := roundQ_val n2 d hd (by omega) hup2' hlo2'
  obtain ⟨hsl1, hsr1⟩ := flog2_spec (n1.natAbs : ℤ) d (by omega) hd hup1 hlo1'
  obtain ⟨hsl2, hsr2⟩ := flog2_spec (n2.natAbs : ℤ) d (by omega) hd hup2' hlo2'
  rw [natAbs_cast_div n1 d hd] at hsl1 hsr1
  rw [natAbs_cast_div n2 d hd] at hsl2 hsr2
  have hv1pos : (0:ℚ) < (n1:ℚ)/d := by
    apply div_pos _ hdq
    exact_mod_cast hn1
  have hv12 : (n1:ℚ)/d ≤ (n2:ℚ)/d := by
    apply div_le_div_of_nonneg_right ?_ (le_of_lt hdq)
    exact_mod_cast h12
  have hv2pos : (0:ℚ) < (n2:ℚ)/d := lt_of_lt_of_le hv1pos hv12
  rw [abs_of_pos hv1pos] at hsl1 hsr1
  rw [abs_of_pos hv2pos] at hsl2 hsr2
  have he12 : flog2 (n1.natAbs : ℤ) d ≤ flog2 (n2.natAbs : ℤ) d := by
    have h1 : (2:ℚ) ^ flog2 (n1.natAbs : ℤ) d < 2 ^ (flog2 (n2.natAbs : ℤ) d + 1) :=
      lt_of_le_of_lt (le_trans hsl1 hv12) hsr2
    have := two_zpow_lt_iff.mp h1
    omega
  rcases eq_or_lt_of_le he12 with heq | hlt
  · rw [hval1, hval2, ← heq]
    apply mul_le_mul_of_nonneg_right _ (le_of_lt (two_zpow_pos _))
    have hS : scaleS n1 d (flog2 (n1.natAbs : ℤ) d) ≤ scaleS n2 d (flog2 (n1.natAbs : ℤ) d) := by
      unfold scaleS
      split_ifs
      · exact mul_le_mul_of_nonneg_right h12 (by positivity)
      · exact h12
    have hmono := rneInt_mono_d _ _ _ (scaleD_pos d (flog2 (n1.natAbs : ℤ) d) hd) hS
    exact_mod_cast hmono
  · calc (roundQ n1 d).val ≤ 2 ^ (flog2 (n1.natAbs : ℤ) d + 1) := by
          rw [hval1]
          have hb : (rneInt (scaleS n1 d (flog2 (n1.natAbs : ℤ) d)) (scaleD d (flog2 (n1.natAbs : ℤ) d)) : ℚ) ≤ 2 ^ (24:ℕ) := by
            have hi : rneInt (scaleS n1 d (flog2 (n1.natAbs : ℤ) d)) (scaleD d (flog2 (n1.natAbs : ℤ) d)) ≤ 2 ^ 24 := by omega
            exact_mod_cast hi
          calc (rneInt (scaleS n1 d (flog2 (n1.natAbs : ℤ) d)) (scaleD d (flog2 (n1.natAbs : ℤ) d)) : ℚ) * 2 ^ (flog2 (n1.natAbs : ℤ) d - 23) ≤
              2 ^ (24:ℕ) * 2 ^ (flog2 (n1.natAbs : ℤ) d - 23) :=
                mul_le_mul_of_nonneg_right hb (le_of_lt (two_zpow_pos _))
          _ = 2 ^ (flog2 (n1.natAbs : ℤ) d + 1) := by
              rw [← zpow_natCast_q 24, ← zpow_add₀ (two_ne_zero : (2:ℚ) ≠ 0)]
              congr 1
              push_cast
              ring
    _ ≤ 2 ^ flog2 (n2.natAbs : ℤ) d := two_zpow_le_iff.mpr (by omega)
    _ ≤ (roundQ n2 d).val := by
          rw [hval2]
          have h23 : (2:ℚ) ^ (23:ℕ) ≤ (rneInt (scaleS n2 d (flog2 (n2.natAbs : ℤ) d)) (scaleD d (flog2 (n2.natAbs : ℤ) d)) : ℚ) := by
            have hi := hsp2 hn2
            exact_mod_cast hi
          calc (2:ℚ) ^ flog2 (n2.natAbs : ℤ) d =
              2 ^ (23:ℕ) * 2 ^ (flog2 (n2.natAbs : ℤ) d - 23) := by
                rw [← zpow_natCast_q 23, ← zpow_add₀ (two_ne_zero : (2:ℚ) ≠ 0)]
                congr 1
                push_cast
                ring
          _ ≤ (rneInt (scaleS n2 d (flog2 (n2.natAbs : ℤ) d)) (scaleD d (flog2 (n2.natAbs : ℤ) d)) : ℚ) * 2 ^ (flog2 (n2.natAbs : ℤ) d - 23) :=
              mul_le_mul_of_nonneg_right h23 (le_of_lt (two_zpow_pos _))

/-! ### Exactness of the binary32 operations on representable values -/

theorem roundQ_zero (d : ℤ) : roundQ 0 d = ⟨0, 0⟩ := by
  unfold roundQ
  rw [if_pos rfl]

theorem roundQ_pos (n d : ℤ) (hd : 0 < d) (hn : 0 < n)
    (hup : (n.natAbs : ℤ) < 2 ^ 1000 * d) (hlo : d ≤ 2 ^ 1000 * (n.natAbs : ℤ)) :
    0 < (roundQ n d).val := by
  obtain ⟨hval, _, _, hsp, _⟩ := roundQ_val n d hd (by omega) hup hlo
  rw [hval]
  have h1 := hsp hn
  have h2 : (0:ℚ) < (rneInt (scaleS n d (flog2 n.natAbs d)) (scaleD d (flog2 n.natAbs d)) : ℚ) := by
    exact_mod_cast lt_of_lt_of_le (by norm_num : (0:ℤ) < 2 ^ 23) h1
  exact mul_pos h2 (two_zpow_pos _)

theorem zpow_int_range (u : ℤ) (hu : u ≠ 0) (hsz : u.natAbs < 2 ^ 24) :
    (2:ℚ) ^ (-720 : ℤ) ≤ |(u:ℚ)| ∧ |(u:ℚ)| ≤ (2:ℚ) ^ (720:ℤ) := by
  have h1 : (1:ℚ) ≤ |(u:ℚ)| := by
    have : 1 ≤ u.natAbs := by omega
    have h2 : ((1:ℕ) : ℚ) ≤ (u.natAbs : ℚ) := by exact_mod_cast this
    rw [Int.cast_natAbs] at h2
    push_cast at h2
    exact_mod_cast h2
  have h3 : |(u:ℚ)| ≤ 2 ^ (24:ℕ) := by
    have : u.natAbs ≤ 2 ^ 24 := by omega
    have h4 : (u.natAbs : ℚ) ≤ ((2 ^ 24 : ℕ) : ℚ) := by exact_mod_cast this
    rw [Int.cast_natAbs] at h4
    push_cast at h4
    exact_mod_cast h4
  constructor
  · calc (2:ℚ) ^ (-720:ℤ) ≤ 2 ^ (0:ℤ) := two_zpow_le_iff.mpr (by omega)
    _ = 1 := by norm_num
    _ ≤ |(u:ℚ)| := h1
  · calc |(u:ℚ)| ≤ 2 ^ (24:ℕ) := h3
    _ = 2 ^ (24:ℤ) := (zpow_natCast_q 24).symm
    _ ≤ 2 ^ (720:ℤ) := two_zpow_le_iff.mpr (by omega)

theorem ofIntR_val_small (n : ℤ) (hsz : n.natAbs < 2 ^ 24) : (F32.ofIntR n).val = n := by
  by_cases hn : n = 0
  · rw [hn]
    show (roundQ 0 1).val = ((0:ℤ):ℚ)
    rw [roundQ_zero]
    simp [F32.val]
  · unfold F32.ofIntR
    have hrep : ((n:ℚ)) / ((1:ℤ):ℚ) = (n:ℚ) * 2 ^ (0:ℤ) := by
      push_cast
      norm_num
    obtain ⟨hr1, hr2⟩ := zpow_int_range n hn hsz
    have h := roundQ_exact n 1 n 0 (by norm_num) hrep hn hsz
      (by rw [hrep, zpow_zero, mul_one]; exact hr1)
      (by rw [hrep, zpow_zero, mul_one]; exact hr2)
    rw [h, hrep, zpow_zero, mul_one]

theorem roundDya_as_roundQ (n k : ℤ) :
    ∃ N D : ℤ, 0 < D ∧ roundDya n k = roundQ N D ∧ (N:ℚ)/D = (n:ℚ) * 2 ^ k := by
  unfold roundDya
  split_ifs with hc
  · refine ⟨n * 2 ^ k.toNat, 1, by norm_num, rfl, ?_⟩
    push_cast
    rw [← zpow_natCast (2:ℚ) k.toNat, Int.toNat_of_nonneg hc]
    norm_num
  · refine ⟨n, 2 ^ (-k).toNat, by positivity, rfl, ?_⟩
    push_cast
    rw [← zpow_natCast (2:ℚ) (-k).toNat, Int.toNat_of_nonneg (by omega : (0:ℤ) ≤ -k)]
    rw [div_eq_mul_inv, ← zpow_neg, show -(-k) = k by ring]

theorem roundDya_exact (n k u t : ℤ)
    (hrep : (n:ℚ) * 2 ^ k = (u:ℚ) * 2 ^ t) (hu : u ≠ 0) (husz : u.natAbs < 2 ^ 24)
    (hvlo : (2:ℚ) ^ (-700 : ℤ) ≤ |(n:ℚ) * 2 ^ k|) (hvhi : |(n:ℚ) * 2 ^ k| ≤ (2:ℚ) ^ (700:ℤ)) :
    (roundDya n k).val = (n:ℚ) * 2 ^ k := by
  obtain ⟨N, D, hD, hEq, hRatio⟩ := roundDya_as_roundQ n k
  rw [hEq]
  rw [← hRatio] at hrep hvlo hvhi
  have h := roundQ_exact N D u t hD hrep hu husz
    (le_trans (two_zpow_le_iff.mpr (by omega)) hvlo) (le_trans hvhi (two_zpow_le_iff.mpr (by omega)))
  rw [h, hRatio]

theorem add_arg_val (a b : F32) :
    ((a.m * 2 ^ (a.e - min a.e b.e).toNat + b.m * 2 ^ (b.e - min a.e b.e).toNat : ℤ) : ℚ) *
      2 ^ min a.e b.e = a.val + b.val := by
  have ha := scaled_cast a.m a.e (min a.e b.e) (min_le_left _ _)
  have hb := scaled_cast b.m b.e (min a.e b.e) (min_le_right _ _)
  push_cast
  push_cast at ha hb
  rw [add_mul]
  unfold F32.val
  have hz : ∀ x : ℚ, x * 2 ^ (-(min a.e b.e)) * 2 ^ min a.e b.e = x := by
    intro x
    rw [mul_assoc, ← zpow_add₀ (two_ne_zero : (2:ℚ) ≠ 0)]
    norm_num
  rw [ha, hb, hz, hz]

theorem add_exact (a b : F32) (u t : ℤ)
    (hrep : a.val + b.val = (u:ℚ) * 2 ^ t) (hu : u ≠ 0) (husz : u.natAbs < 2 ^ 24)
    (hvlo : (2:ℚ) ^ (-700 : ℤ) ≤ |a.val + b.val|) (hvhi : |a.val + b.val| ≤ (2:ℚ) ^ (700:ℤ)) :
    (F32.add a b).val = a.val + b.val := by
  have harg := add_arg_val a b
  unfold F32.add
  rw [roundDya_exact _ _ u t (by rw [harg, hrep]) hu husz (by rw [harg]; exact hvlo)
    (by rw [harg]; exact hvhi), harg]

theorem add_val_zero (a b : F32) (h : a.val + b.val = 0) : F32.add a b = ⟨0, 0⟩ := by
  have harg := add_arg_val a b
  rw [h] at harg
  have hN : a.m * 2 ^ (a.e - min a.e b.e).toNat + b.m * 2 ^ (b.e - min a.e b.e).toNat = 0 := by
    have h2 := harg
    have hp := two_zpow_pos (min a.e b.e)
    have : ((a.m * 2 ^ (a.e - min a.e b.e).toNat + b.m * 2 ^ (b.e - min a.e b.e).toNat : ℤ) : ℚ) = 0 := by
      by_contra hq
      have := mul_ne_zero hq (ne_of_gt hp)
      exact this h2
    exact_mod_cast this
  unfold F32.add
  show roundDya (a.m * 2 ^ (a.e - min a.e b.e).toNat + b.m * 2 ^ (b.e - min a.e b.e).toNat)
      (min a.e b.e) = ⟨0, 0⟩
  rw [hN]
  unfold roundDya
  split_ifs
  · rw [zero_mul, roundQ_zero]
  · rw [roundQ_zero]

theorem sub_exact (a b : F32) (u t : ℤ)
    (hrep : a.val - b.val = (u:ℚ) * 2 ^ t) (hu : u ≠ 0) (husz : u.natAbs < 2 ^ 24)
    (hvlo : (2:ℚ) ^ (-700 : ℤ) ≤ |a.val - b.val|) (hvhi : |a.val - b.val| ≤ (2:ℚ) ^ (700:ℤ)) :
    (F32.sub a b).val = a.val - b.val := by
  unfold F32.sub
  have hneg := F32.neg_val b
  have h := add_exact a b.neg u t (by rw [hneg]; rw [← sub_eq_add_neg]; exact hrep) hu husz
    (by rw [hneg, ← sub_eq_add_neg]; exact hvlo) (by rw [hneg, ← sub_eq_add_neg]; exact hvhi)
  rw [h, hneg, ← sub_eq_add_neg]

theorem sub_val_zero (a b : F32) (h : a.val = b.val) : F32.sub a b = ⟨0, 0⟩ := by
  unfold F32.sub
  apply add_val_zero
  rw [F32.neg_val, h]
  ring

theorem mul_arg_val (a b : F32) :
    ((a.m * b.m : ℤ) : ℚ) * 2 ^ (a.e + b.e) = a.val * b.val := by
  unfold F32.val
  push_cast
  rw [zpow_add₀ (two_ne_zero : (2:ℚ) ≠ 0)]
  ring

theorem mul_exact (a b : F32) (u t : ℤ)
    (hrep : a.val * b.val = (u:ℚ) * 2 ^ t) (hu : u ≠ 0) (husz : u.natAbs < 2 ^ 24)
    (hvlo : (2:ℚ) ^ (-700 : ℤ) ≤ |a.val * b.val|) (hvhi : |a.val * b.val| ≤ (2:ℚ) ^ (700:ℤ)) :
    (F32.mul a b).val = a.val * b.val := by
  have harg := mul_arg_val a b
  unfold F32.mul
  rw [roundDya_exact _ _ u t (by rw [harg, hrep]) hu husz (by rw [harg]; exact hvlo)
    (by rw [harg]; exact hvhi), harg]

theorem div_as_roundQ (a b : F32) (hb : b.m ≠ 0) :
    ∃ N D : ℤ, 0 < D ∧ F32.div a b = roundQ N D ∧ (N:ℚ)/D = a.val / b.val := by
  have hbq : ((b.m : ℤ) : ℚ) ≠ 0 := by exact_mod_cast hb
  unfold F32.div
  rw [if_neg hb]
  by_cases hc : 0 ≤ a.e - b.e
  · rw [if_pos hc]
    have hp : (((a.e - b.e).toNat : ℕ) : ℤ) = a.e - b.e := Int.toNat_of_nonneg hc
    have hratio : ((a.m * 2 ^ (a.e - b.e).toNat : ℤ) : ℚ) / (b.m : ℚ) = a.val / b.val := by
      unfold F32.val
      push_cast
      rw [← zpow_natCast (2:ℚ) (a.e - b.e).toNat, hp]
      rw [div_eq_div_iff hbq (mul_ne_zero hbq (ne_of_gt (two_zpow_pos b.e)))]
      have key : (2:ℚ) ^ (-b.e) * 2 ^ b.e = 1 := by
        rw [← zpow_add₀ (two_ne_zero : (2:ℚ) ≠ 0)]
        norm_num
      calc (a.m:ℚ) * 2 ^ (a.e - b.e) * ((b.m:ℚ) * 2 ^ b.e) =
          (a.m:ℚ) * 2 ^ (a.e + -b.e) * ((b.m:ℚ) * 2 ^ b.e) := by
            rw [show a.e - b.e = a.e + -b.e by ring]
      _ = ((a.m:ℚ) * 2 ^ a.e * b.m) * (2 ^ (-b.e) * 2 ^ b.e) := by
            rw [zpow_add₀ (two_ne_zero : (2:ℚ) ≠ 0)]
            ring
      _ = (a.m:ℚ) * 2 ^ a.e * b.m := by rw [key, mul_one]
    unfold roundQZ
    split_ifs with hs
    · refine ⟨-(a.m * 2 ^ (a.e - b.e).toNat), -b.m, by omega, rfl, ?_⟩
      rw [Int.cast_neg, Int.cast_neg, neg_div_neg_eq]
      exact hratio
    · refine ⟨a.m * 2 ^ (a.e - b.e).toNat, b.m, by omega, rfl, hratio⟩
  · rw [if_neg hc]
    have hq : (((b.e - a.e).toNat : ℕ) : ℤ) = b.e - a.e := Int.toNat_of_nonneg (by omega)
    have hDne : b.m * 2 ^ (b.e - a.e).toNat ≠ 0 :=
      mul_ne_zero hb (by positivity)
    have hratio : (a.m : ℚ) / ((b.m * 2 ^ (b.e - a.e).toNat : ℤ) : ℚ) = a.val / b.val := by
      unfold F32.val
      push_cast
      rw [← zpow_natCast (2:ℚ) (b.e - a.e).toNat, hq]
      rw [div_eq_div_iff (mul_ne_zero hbq (ne_of_gt (two_zpow_pos _)))
        (mul_ne_zero hbq (ne_of_gt (two_zpow_pos b.e)))]
      calc (a.m:ℚ) * ((b.m:ℚ) * 2 ^ b.e) = (a.m:ℚ) * (b.m:ℚ) * (2 ^ a.e * 2 ^ (b.e - a.e)) := by
            rw [← zpow_add₀ (two_ne_zero : (2:ℚ) ≠ 0)]
            rw [show a.e + (b.e - a.e) = b.e by ring]
            ring
      _ = (a.m:ℚ) * 2 ^ a.e * ((b.m:ℚ) * 2 ^ (b.e - a.e)) := by ring
    unfold roundQZ
    split_ifs with hs
    · refine ⟨-a.m, -(b.m * 2 ^ (b.e - a.e).toNat), by omega, rfl, ?_⟩
      rw [Int.cast_neg, Int.cast_neg, neg_div_neg_eq]
      exact hratio
    · refine ⟨a.m, b.m * 2 ^ (b.e - a.e).toNat, by omega, rfl, hratio⟩

theorem div_exact (a b : F32) (hb : b.m ≠ 0) (u t : ℤ)
    (hrep : a.val / b.val = (u:ℚ) * 2 ^ t) (hu : u ≠ 0) (husz : u.natAbs < 2 ^ 24)
    (hvlo : (2:ℚ) ^ (-700 : ℤ) ≤ |a.val / b.val|) (hvhi : |a.val / b.val| ≤ (2:ℚ) ^ (700:ℤ)) :
    (F32.div a b).val = a.val / b.val := by
  obtain ⟨N, D, hD, hEq, hRatio⟩ := div_as_roundQ a b hb
  rw [hEq]
  rw [← hRatio] at hrep hvlo hvhi
  rw [roundQ_exact N D u t hD hrep hu husz
    (le_trans (two_zpow_le_iff.mpr (by omega)) hvlo)
    (le_trans hvhi (two_zpow_le_iff.mpr (by omega))), hRatio]

/-! ### Channel normalization c/255 and exact small-integer arithmetic -/

theorem ofIntR_255 : F32.ofIntR 255 = ⟨255, 0⟩ := by decide

theorem ofIntR_repr (c : ℤ) (hc : c ≠ 0) (hsz : c.natAbs < 2 ^ 24) :
    (F32.ofIntR c).m ≠ 0 ∧ (F32.ofIntR c).m % 2 = 1 ∧ (F32.ofIntR c).m.natAbs < 2 ^ 24 := by
  unfold F32.ofIntR
  apply roundQ_repr c 1 (by norm_num) hc
  · omega
  · omega

theorem ofIntR_int_form (c : ℤ) (hc : 0 < c) (hsz : c.natAbs < 2 ^ 24) :
    0 ≤ (F32.ofIntR c).e ∧ (F32.ofIntR c).m * 2 ^ (F32.ofIntR c).e.toNat = c := by
  obtain ⟨hm0, hodd, hmsz⟩ := ofIntR_repr c (by omega) hsz
  have hval : (F32.ofIntR c).val = c := ofIntR_val_small c hsz
  unfold F32.val at hval
  have he : 0 ≤ (F32.ofIntR c).e := by
    by_contra hneg
    have hk : (((-(F32.ofIntR c).e).toNat : ℕ) : ℤ) = -(F32.ofIntR c).e :=
      Int.toNat_of_nonneg (by omega)
    have hmq : ((F32.ofIntR c).m : ℚ) = (c : ℚ) * 2 ^ (-(F32.ofIntR c).e).toNat := by
      have h2 : ((F32.ofIntR c).m : ℚ) * 2 ^ (F32.ofIntR c).e * 2 ^ (-(F32.ofIntR c).e) =
          (c:ℚ) * 2 ^ (-(F32.ofIntR c).e) := by rw [hval]
      rw [mul_assoc, ← zpow_add₀ (two_ne_zero : (2:ℚ) ≠ 0)] at h2
      simp only [add_neg_cancel, zpow_zero, mul_one] at h2
      rw [h2, ← zpow_natCast (2:ℚ) (-(F32.ofIntR c).e).toNat, hk]
    have hmz : (F32.ofIntR c).m = c * 2 ^ (-(F32.ofIntR c).e).toNat := by
      exact_mod_cast hmq
    have heven : (2:ℤ) ∣ (F32.ofIntR c).m := by
      rw [hmz]
      exact Dvd.dvd.mul_left (dvd_pow_self 2 (by omega)) c
    omega
  refine ⟨he, ?_⟩
  have hk : (((F32.ofIntR c).e.toNat : ℕ) : ℤ) = (F32.ofIntR c).e := Int.toNat_of_nonneg he
  have hq : ((F32.ofIntR c).m : ℚ) * 2 ^ (F32.ofIntR c).e.toNat = (c : ℚ) := by
    rw [← zpow_natCast (2:ℚ), hk]
    exact hval
  exact_mod_cast hq

theorem chan_eq_roundQ (c : ℕ) (hc : 0 < c) (hsz : c < 2 ^ 24) :
    chan c = roundQ c 255 := by
  obtain ⟨he, hform⟩ := ofIntR_int_form (c : ℤ) (by exact_mod_cast hc) (by omega)
  obtain ⟨hm0, _, _⟩ := ofIntR_repr (c : ℤ) (by omega) (by omega)
  unfold chan F32.div
  rw [ofIntR_255]
  rw [if_neg (by norm_num : ((255:ℤ)) ≠ 0)]
  have hce : 0 ≤ (F32.ofIntR (c:ℤ)).e - (0:ℤ) := by omega
  rw [if_pos hce]
  unfold roundQZ
  rw [if_neg (by norm_num : ¬((255:ℤ) < 0))]
  congr 1
  rw [show (F32.ofIntR (c:ℤ)).e - (0:ℤ) = (F32.ofIntR (c:ℤ)).e by ring]
  exact hform

theorem chan_zero : chan 0 = ⟨0, 0⟩ := by decide

theorem chan_val_mono (c1 c2 : ℕ) (h12 : c1 ≤ c2) (h2 : c2 ≤ 255) :
    (chan c1).val ≤ (chan c2).val := by
  rcases Nat.eq_zero_or_pos c1 with h0 | hp
  · rcases Nat.eq_zero_or_pos c2 with h02 | hp2
    · rw [h0, h02]
    · rw [h0, chan_zero]
      have : (F32.mk 0 0).val = 0 := by
        unfold F32.val
        norm_num
      rw [this, chan_eq_roundQ c2 hp2 (by omega)]
      apply le_of_lt
      apply roundQ_pos _ _ (by norm_num) (by exact_mod_cast hp2)
      · have hna : ((c2:ℤ)).natAbs = c2 := rfl
        have hA : (255:ℤ) ≤ 2 ^ 1000 := by norm_num
        have hc2' : (c2:ℤ) ≤ 255 := by exact_mod_cast h2
        have hB : (2:ℤ) ^ 1000 * 1 ≤ 2 ^ 1000 * 255 := by
          apply mul_le_mul_of_nonneg_left (by norm_num) (by positivity)
        omega
      · have hna : ((c2:ℤ)).natAbs = c2 := rfl
        have h1 : (1:ℤ) ≤ ((c2:ℤ).natAbs : ℤ) := by omega
        have hB : (2:ℤ) ^ 1000 * 1 ≤ 2 ^ 1000 * ((c2:ℤ).natAbs : ℤ) := by
          apply mul_le_mul_of_nonneg_left h1 (by positivity)
        have hA : (255:ℤ) ≤ 2 ^ 1000 := by norm_num
        omega
  · rw [chan_eq_roundQ c1 hp (by omega), chan_eq_roundQ c2 (by omega) (by omega)]
    apply roundQ_mono_d _ _ _ (by norm_num) (by exact_mod_cast hp) (by exact_mod_cast h12)
    · have hc2' : (c2:ℤ) ≤ 255 := by exact_mod_cast h2
      have hA : (256:ℤ) ≤ 2 ^ 900 := by norm_num
      have hB : (2:ℤ) ^ 900 * 1 ≤ 2 ^ 900 * 255 := by
        apply mul_le_mul_of_nonneg_left (by norm_num) (by positivity)
      omega
    · have h1 : (1:ℤ) ≤ (c1:ℤ) := by exact_mod_cast hp
      have hB : (2:ℤ) ^ 900 * 1 ≤ 2 ^ 900 * (c1:ℤ) := by
        apply mul_le_mul_of_nonneg_left h1 (by positivity)
      have hA : (255:ℤ) ≤ 2 ^ 900 := by norm_num
      omega

theorem chan_pos_val (c : ℕ) (hc : 0 < c) (hsz : c ≤ 255) : 0 < (chan c).val := by
  rw [chan_eq_roundQ c hc (by omega)]
  apply roundQ_pos _ _ (by norm_num) (by exact_mod_cast hc)
  · have hna : ((c:ℤ)).natAbs = c := rfl
    have hA : (255:ℤ) ≤ 2 ^ 1000 := by norm_num
    have hc' : (c:ℤ) ≤ 255 := by exact_mod_cast hsz
    have hB : (2:ℤ) ^ 1000 * 1 ≤ 2 ^ 1000 * 255 := by
      apply mul_le_mul_of_nonneg_left (by norm_num) (by positivity)
    omega
  · have hna : ((c:ℤ)).natAbs = c := rfl
    have h1 : (1:ℤ) ≤ ((c:ℤ).natAbs : ℤ) := by omega
    have hB : (2:ℤ) ^ 1000 * 1 ≤ 2 ^ 1000 * ((c:ℤ).natAbs : ℤ) := by
      apply mul_le_mul_of_nonneg_left h1 (by positivity)
    have hA : (255:ℤ) ≤ 2 ^ 1000 := by norm_num
    omega

theorem chanAdj : ∀ c : ℕ, c < 255 → F32.lt (chan c) (chan (c + 1)) = true := by decide

theorem chan_val_strict (c1 c2 : ℕ) (h : c1 < c2) (h2 : c2 ≤ 255) :
    (chan c1).val < (chan c2).val := by
  have hstep := (F32.lt_val _ _).mp (chanAdj (c2 - 1) (by omega))
  rw [show c2 - 1 + 1 = c2 by omega] at hstep
  have hmono := chan_val_mono c1 (c2 - 1) (by omega) (by omega)
  linarith

theorem beqv_chan (a b : ℕ) (ha : a ≤ 255) (hb : b ≤ 255) :
    F32.beqv (chan a) (chan b) = true ↔ a = b := by
  rw [F32.beqv_val]
  constructor
  · intro h
    rcases lt_trichotomy a b with hc | hc | hc
    · exact absurd h (ne_of_lt (chan_val_strict a b hc hb))
    · exact hc
    · exact absurd h (ne_of_gt (chan_val_strict b a hc ha))
  · intro h
    rw [h]

theorem maxv_chan (a b : ℕ) (ha : a ≤ 255) (hb : b ≤ 255) :
    F32.maxv (chan a) (chan b) = chan (max a b) := by
  rcases lt_trichotomy a b with hc | hc | hc
  · unfold F32.maxv
    rw [if_pos ((F32.lt_val _ _).mpr (chan_val_strict a b hc hb))]
    rw [Nat.max_eq_right (le_of_lt hc)]
  · rw [hc]
    unfold F32.maxv
    rw [Nat.max_self]
    split_ifs <;> rfl
  · unfold F32.maxv
    rw [if_neg ?_, Nat.max_eq_left (le_of_lt hc)]
    intro hlt
    have := (F32.lt_val _ _).mp hlt
    exact absurd this (not_lt.mpr (le_of_lt (chan_val_strict b a hc ha)))

theorem minv_chan (a b : ℕ) (ha : a ≤ 255) (hb : b ≤ 255) :
    F32.minv (chan a) (chan b) = chan (min a b) := by
  rcases lt_trichotomy a b with hc | hc | hc
  · unfold F32.minv
    rw [if_neg ?_, Nat.min_eq_left (le_of_lt hc)]
    intro hlt
    have := (F32.lt_val _ _).mp hlt
    exact absurd this (not_lt.mpr (le_of_lt (chan_val_strict a b hc hb)))
  · rw [hc]
    unfold F32.minv
    rw [Nat.min_self]
    split_ifs <;> rfl
  · unfold F32.minv
    rw [if_pos ((F32.lt_val _ _).mpr (chan_val_strict b a hc ha))]
    rw [Nat.min_eq_right (le_of_lt hc)]

theorem dyadic_range (u t : ℤ) (hu : u ≠ 0) (husz : u.natAbs < 2 ^ 24)
    (ht1 : -500 ≤ t) (ht2 : t ≤ 500) :
    (2:ℚ) ^ (-700 : ℤ) ≤ |(u:ℚ) * 2 ^ t| ∧ |(u:ℚ) * 2 ^ t| ≤ (2:ℚ) ^ (700:ℤ) := by
  have habs : |(u:ℚ) * 2 ^ t| = |(u:ℚ)| * 2 ^ t := by
    rw [abs_mul, abs_of_pos (two_zpow_pos t)]
  have hge1 : (1:ℚ) ≤ |(u:ℚ)| := by
    have : 1 ≤ u.natAbs := by omega
    have hq : ((1:ℕ) : ℚ) ≤ (u.natAbs : ℚ) := by exact_mod_cast this
    rw [Int.cast_natAbs] at hq
    push_cast at hq
    exact_mod_cast hq
  have hle24 : |(u:ℚ)| ≤ 2 ^ (24:ℤ) := by
    have : u.natAbs ≤ 2 ^ 24 := by omega
    have hq : (u.natAbs : ℚ) ≤ ((2 ^ 24 : ℕ) : ℚ) := by exact_mod_cast this
    rw [Int.cast_natAbs] at hq
    push_cast at hq
    calc |(u:ℚ)| ≤ 2 ^ (24:ℕ) := by exact_mod_cast hq
    _ = 2 ^ (24:ℤ) := (zpow_natCast_q 24).symm
  constructor
  · rw [habs]
    calc (2:ℚ) ^ (-700:ℤ) ≤ 2 ^ t := two_zpow_le_iff.mpr (by omega)
    _ = 1 * 2 ^ t := (one_mul _).symm
    _ ≤ |(u:ℚ)| * 2 ^ t := mul_le_mul_of_nonneg_right hge1 (le_of_lt (two_zpow_pos _))
  · rw [habs]
    calc |(u:ℚ)| * 2 ^ t ≤ 2 ^ (24:ℤ) * 2 ^ t :=
          mul_le_mul_of_nonneg_right hle24 (le_of_lt (two_zpow_pos _))
    _ ≤ 2 ^ (24:ℤ) * 2 ^ (500:ℤ) := by
        apply mul_le_mul_of_nonneg_left _ (le_of_lt (two_zpow_pos _))
        exact two_zpow_le_iff.mpr ht2
    _ = 2 ^ (524:ℤ) := by
        rw [← zpow_add₀ (two_ne_zero : (2:ℚ) ≠ 0)]
        norm_num
    _ ≤ 2 ^ (700:ℤ) := two_zpow_le_iff.mpr (by omega)

theorem ofIntR_2 : F32.ofIntR 2 = ⟨1, 1⟩ := by decide

theorem ofIntR_2_val : (F32.ofIntR 2).val = 2 := by
  rw [ofIntR_2]
  unfold F32.val
  rw [zpow_one]
  norm_num

theorem half_int_val (w : ℤ) (h0 : 0 ≤ w) (hw : w ≤ 2 ^ 23) :
    (F32.div (F32.ofIntR w) (F32.ofIntR 2)).val = (w:ℚ) / 2 := by
  rcases eq_or_lt_of_le h0 with hz | hp
  · rw [← hz]
    have hcl : F32.div (F32.ofIntR 0) (F32.ofIntR 2) = ⟨0, 0⟩ := by decide
    rw [hcl]
    unfold F32.val
    norm_num
  · have hb : (F32.ofIntR 2).m ≠ 0 := by
      rw [ofIntR_2]
      norm_num
    have hv1 : (F32.ofIntR w).val = w := ofIntR_val_small w (by omega)
    have hrw : (F32.ofIntR w).val / (F32.ofIntR 2).val = (w:ℚ) / 2 := by
      rw [hv1, ofIntR_2_val]
    have hrep : (F32.ofIntR w).val / (F32.ofIntR 2).val = (w:ℚ) * 2 ^ (-1 : ℤ) := by
      rw [hrw, zpow_neg, zpow_one, div_eq_mul_inv]
    obtain ⟨hr1, hr2⟩ := dyadic_range w (-1) (by omega) (by omega) (by omega) (by omega)
    rw [← hrep] at hr1 hr2
    rw [div_exact _ _ hb w (-1) hrep (by omega) (by omega) hr1 hr2, hrw]

theorem sub_int_half_val (tx w : ℤ) (htx0 : 0 ≤ tx) (htx : tx < 2 ^ 23)
    (hw0 : 0 ≤ w) (hw : w ≤ 2 ^ 23) :
    (F32.sub (F32.ofIntR tx) (F32.div (F32.ofIntR w) (F32.ofIntR 2))).val =
      (tx:ℚ) - (w:ℚ) / 2 := by
  have hv1 : (F32.ofIntR tx).val = tx := ofIntR_val_small tx (by omega)
  have hv2 := half_int_val w hw0 hw
  by_cases hzz : 2 * tx - w = 0
  · have heq : (F32.ofIntR tx).val = (F32.div (F32.ofIntR w) (F32.ofIntR 2)).val := by
      rw [hv1, hv2]
      have : (w:ℚ) = 2 * tx := by exact_mod_cast congrArg (fun z : ℤ => (z:ℚ)) (by omega : w = 2 * tx)
      rw [this]
      ring
    rw [sub_val_zero _ _ heq]
    unfold F32.val
    have : (w:ℚ) = 2 * tx := by exact_mod_cast congrArg (fun z : ℤ => (z:ℚ)) (by omega : w = 2 * tx)
    rw [this]
    push_cast
    ring
  · have hrep : (F32.ofIntR tx).val - (F32.div (F32.ofIntR w) (F32.ofIntR 2)).val =
        ((2 * tx - w : ℤ) : ℚ) * 2 ^ (-1 : ℤ) := by
      rw [hv1, hv2, zpow_neg, zpow_one]
      push_cast
      ring
    obtain ⟨hr1, hr2⟩ := dyadic_range (2 * tx - w) (-1) hzz (by omega) (by omega) (by omega)
    rw [← hrep] at hr1 hr2
    rw [sub_exact _ _ (2 * tx - w) (-1) hrep hzz (by omega) hr1 hr2, hv1, hv2]

/-! ### The program model, translated from src/colorant.rs -/

example : find_target_hsv cfgAll frame8 = some (3, 3) := by decide

example : find_target_hsv cfgNone frame1 = none := by decide

example : find_target_hsv cfgAll frame1 = none := by decide

example : matchCount cfgAll frame1 = 1 := by decide

example : rgb_to_hsv_opencv 7 3 3 = (0, 145, 7) := by decide

example : rgb_to_hsv_opencv 0 255 0 = (60, 255, 255) := by decide

/-! ### The scan loop computes the filter sums -/

theorem foldl_bind_general {α β γ : Type} (l : List α) (f : α → List β) (g : γ → β → γ) :
    ∀ init : γ, (l.flatMap f).foldl g init = l.foldl (fun acc a => (f a).foldl g acc) init := by
  induction l with
  | nil => intro init; rfl
  | cons a l ih =>
    intro init
    rw [List.flatMap_cons, List.foldl_append, List.foldl_cons, ih]

theorem scan_eq_flat (cfg : Config) (fr : Frame) :
    scanFrame cfg fr = (pixList fr).foldl (ftStep cfg fr) (0, 0, 0) := by
  unfold scanFrame pixList
  rw [foldl_bind_general]
  congr 1
  funext acc y
  rw [List.foldl_map]

theorem wrap64_id (z : ℤ) (h0 : 0 ≤ z) (h : z < 2 ^ 63) : wrap64 z = z := by
  unfold wrap64
  omega

theorem wrap32_id (z : ℤ) (h0 : 0 ≤ z) (h : z < 2 ^ 31) : wrap32 z = z := by
  unfold wrap32
  omega

theorem foldl_ftStep_spec (cfg : Config) (fr : Frame) :
    ∀ (l : List (ℕ × ℕ)) (a b c : ℕ),
      a + (((l.filter (fun p => hsvMatch cfg (fr.pix p.1 p.2))).map Prod.fst).sum) < 2 ^ 63 →
      b + (((l.filter (fun p => hsvMatch cfg (fr.pix p.1 p.2))).map Prod.snd).sum) < 2 ^ 63 →
      c + (l.filter (fun p => hsvMatch cfg (fr.pix p.1 p.2))).length < 2 ^ 63 →
      l.foldl (ftStep cfg fr) ((a:ℤ), (b:ℤ), (c:ℤ)) =
        (((a + ((l.filter (fun p => hsvMatch cfg (fr.pix p.1 p.2))).map Prod.fst).sum : ℕ) : ℤ),
         ((b + ((l.filter (fun p => hsvMatch cfg (fr.pix p.1 p.2))).map Prod.snd).sum : ℕ) : ℤ),
         ((c + (l.filter (fun p => hsvMatch cfg (fr.pix p.1 p.2))).length : ℕ) : ℤ)) := by
  intro l
  induction l with
  | nil =>
    intro a b c h1 h2 h3
    simp only [List.filter_nil, List.map_nil, List.sum_nil, List.length_nil, List.foldl_nil,
      Nat.add_zero]
  | cons p l ih =>
    intro a b c h1 h2 h3
    by_cases hmatch : hsvMatch cfg (fr.pix p.1 p.2) = true
    · have hfil : (p :: l).filter (fun q => hsvMatch cfg (fr.pix q.1 q.2)) =
          p :: l.filter (fun q => hsvMatch cfg (fr.pix q.1 q.2)) :=
        List.filter_cons_of_pos hmatch
      rw [hfil] at h1 h2 h3
      simp only [List.map_cons, List.sum_cons, List.length_cons] at h1 h2 h3
      rw [List.foldl_cons]
      have hstep : ftStep cfg fr ((a:ℤ), (b:ℤ), (c:ℤ)) p =
          (((a + p.1 : ℕ) : ℤ), ((b + p.2 : ℕ) : ℤ), ((c + 1 : ℕ) : ℤ)) := by
        unfold ftStep
        rw [if_pos hmatch]
        have w1 : wrap64 ((a:ℤ) + (p.1:ℤ)) = ((a + p.1 : ℕ) : ℤ) := by
          unfold wrap64
          omega
        have w2 : wrap64 ((b:ℤ) + (p.2:ℤ)) = ((b + p.2 : ℕ) : ℤ) := by
          unfold wrap64
          omega
        have w3 : wrap64 ((c:ℤ) + 1) = ((c + 1 : ℕ) : ℤ) := by
          unfold wrap64
          omega
        rw [w1, w2, w3]
      rw [hstep, hfil]
      simp only [List.map_cons, List.sum_cons, List.length_cons]
      rw [ih (a + p.1) (b + p.2) (c + 1) (by omega) (by omega) (by omega)]
      rw [Prod.mk.injEq, Prod.mk.injEq]
      refine ⟨by omega, by omega, by omega⟩
    · have hfil : (p :: l).filter (fun q => hsvMatch cfg (fr.pix q.1 q.2)) =
          l.filter (fun q => hsvMatch cfg (fr.pix q.1 q.2)) :=
        List.filter_cons_of_neg (by exact hmatch)
      rw [hfil] at h1 h2 h3
      rw [List.foldl_cons]
      have hstep : ftStep cfg fr ((a:ℤ), (b:ℤ), (c:ℤ)) p = ((a:ℤ), (b:ℤ), (c:ℤ)) := by
        unfold ftStep
        exact if_neg hmatch
      rw [hstep, hfil]
      exact ih a b c h1 h2 h3

theorem pixList_mem (fr : Frame) (p : ℕ × ℕ) (h : p ∈ pixList fr) :
    p.1 < fr.width ∧ p.2 < fr.height := by
  unfold pixList at h
  simp only [List.mem_flatMap, List.mem_map, List.mem_range] at h
  obtain ⟨y, hy, x, hx, rfl⟩ := h
  exact ⟨hx, hy⟩

theorem sum_map_const_nat {α : Type} (l : List α) (w : ℕ) :
    (l.map (fun _ => w)).sum = l.length * w := by
  induction l with
  | nil => simp
  | cons a l ih =>
    simp only [List.map_cons, List.sum_cons, List.length_cons, ih]
    ring

theorem pixList_length (fr : Frame) : (pixList fr).length = fr.height * fr.width := by
  unfold pixList
  rw [List.length_flatMap]
  have hmap : (List.range fr.height).map
        (List.length ∘ fun y => (List.range fr.width).map (fun x => (x, y))) =
      (List.range fr.height).map (fun _ => fr.width) := by
    apply List.map_congr_left
    intro y _
    show ((List.range fr.width).map (fun x => (x, y))).length = fr.width
    rw [List.length_map, List.length_range]
  rw [hmap, sum_map_const_nat, List.length_range]

theorem matchCount_le (cfg : Config) (fr : Frame) :
    matchCount cfg fr ≤ fr.height * fr.width := by
  unfold matchCount matchedPixels
  calc ((pixList fr).filter (fun p => hsvMatch cfg (fr.pix p.1 p.2))).length ≤
      (pixList fr).length := List.length_filter_le _ _
  _ = fr.height * fr.width := pixList_length fr

theorem sumX_le (cfg : Config) (fr : Frame) :
    sumX cfg fr ≤ matchCount cfg fr * fr.width := by
  unfold sumX matchCount
  have := List.sum_le_card_nsmul ((matchedPixels cfg fr).map Prod.fst) fr.width ?_
  · rw [List.length_map, smul_eq_mul] at this
    exact this
  · intro x hx
    simp only [List.mem_map] at hx
    obtain ⟨p, hp, rfl⟩ := hx
    have hmem : p ∈ pixList fr := List.mem_of_mem_filter hp
    exact le_of_lt (pixList_mem fr p hmem).1

theorem sumY_le (cfg : Config) (fr : Frame) :
    sumY cfg fr ≤ matchCount cfg fr * fr.height := by
  unfold sumY matchCount
  have := List.sum_le_card_nsmul ((matchedPixels cfg fr).map Prod.snd) fr.height ?_
  · rw [List.length_map, smul_eq_mul] at this
    exact this
  · intro x hx
    simp only [List.mem_map] at hx
    obtain ⟨p, hp, rfl⟩ := hx
    have hmem : p ∈ pixList fr := List.mem_of_mem_filter hp
    exact le_of_lt (pixList_mem fr p hmem).2

theorem sumX_le_pred (cfg : Config) (fr : Frame) (hw0 : 0 < fr.width) :
    sumX cfg fr ≤ matchCount cfg fr * (fr.width - 1) := by
  unfold sumX matchCount
  have := List.sum_le_card_nsmul ((matchedPixels cfg fr).map Prod.fst) (fr.width - 1) ?_
  · rw [List.length_map, smul_eq_mul] at this
    exact this
  · intro x hx
    simp only [List.mem_map] at hx
    obtain ⟨p, hp, rfl⟩ := hx
    have hmem : p ∈ pixList fr := List.mem_of_mem_filter hp
    have := (pixList_mem fr p hmem).1
    omega

theorem sumY_le_pred (cfg : Config) (fr : Frame) (hh0 : 0 < fr.height) :
    sumY cfg fr ≤ matchCount cfg fr * (fr.height - 1) := by
  unfold sumY matchCount
  have := List.sum_le_card_nsmul ((matchedPixels cfg fr).map Prod.snd) (fr.height - 1) ?_
  · rw [List.length_map, smul_eq_mul] at this
    exact this
  · intro x hx
    simp only [List.mem_map] at hx
    obtain ⟨p, hp, rfl⟩ := hx
    have hmem : p ∈ pixList fr := List.mem_of_mem_filter hp
    have := (pixList_mem fr p hmem).2
    omega

theorem tdiv_natCast (a b : ℕ) : Int.tdiv (a:ℤ) (b:ℤ) = ((a / b : ℕ) : ℤ) := rfl

theorem width_pos_of_count (cfg : Config) (fr : Frame) (h : 0 < matchCount cfg fr) :
    0 < fr.width ∧ 0 < fr.height := by
  unfold matchCount at h
  have hne : matchedPixels cfg fr ≠ [] := by
    intro h0
    rw [h0] at h
    simp at h
  obtain ⟨p, hp⟩ := List.exists_mem_of_ne_nil _ hne
  have hmem : p ∈ pixList fr := List.mem_of_mem_filter hp
  obtain ⟨h1, h2⟩ := pixList_mem fr p hmem
  omega

theorem scan_sums (cfg : Config) (fr : Frame)
    (hsx : sumX cfg fr < 2 ^ 63) (hsy : sumY cfg fr < 2 ^ 63) (hc : matchCount cfg fr < 2 ^ 63) :
    scanFrame cfg fr =
      (((sumX cfg fr : ℕ) : ℤ), ((sumY cfg fr : ℕ) : ℤ), ((matchCount cfg fr : ℕ) : ℤ)) := by
  rw [scan_eq_flat]
  have h := foldl_ftStep_spec cfg fr (pixList fr) 0 0 0
    (by rw [Nat.zero_add]; exact hsx) (by rw [Nat.zero_add]; exact hsy)
    (by rw [Nat.zero_add]; exact hc)
  simp only [Nat.zero_add, Nat.cast_zero] at h
  rw [h]
  rfl

theorem count_bounds (cfg : Config) (fr : Frame)
    (hbig : fr.width * fr.height * (fr.width + fr.height) < 2 ^ 63) :
    sumX cfg fr < 2 ^ 63 ∧ sumY cfg fr < 2 ^ 63 ∧ matchCount cfg fr < 2 ^ 63 := by
  have hNb := matchCount_le cfg fr
  have hSx := sumX_le cfg fr
  have hSy := sumY_le cfg fr
  rcases Nat.eq_zero_or_pos fr.width with hw0 | hw0
  · have hzero : fr.height * fr.width = 0 := by rw [hw0]; ring
    have hN0 : matchCount cfg fr = 0 := by omega
    have hx0 : sumX cfg fr ≤ 0 := by
      calc sumX cfg fr ≤ matchCount cfg fr * fr.width := hSx
      _ = 0 := by rw [hN0]; ring
    have hy0 : sumY cfg fr ≤ 0 := by
      calc sumY cfg fr ≤ matchCount cfg fr * fr.height := hSy
      _ = 0 := by rw [hN0]; ring
    refine ⟨by omega, by omega, by omega⟩
  rcases Nat.eq_zero_or_pos fr.height with hh0 | hh0
  · have hzero : fr.height * fr.width = 0 := by rw [hh0]; ring
    have hN0 : matchCount cfg fr = 0 := by omega
    have hx0 : sumX cfg fr ≤ 0 := by
      calc sumX cfg fr ≤ matchCount cfg fr * fr.width := hSx
      _ = 0 := by rw [hN0]; ring
    have hy0 : sumY cfg fr ≤ 0 := by
      calc sumY cfg fr ≤ matchCount cfg fr * fr.height := hSy
      _ = 0 := by rw [hN0]; ring
    refine ⟨by omega, by omega, by omega⟩
  have hc1 : fr.height * fr.width ≤ fr.height * fr.width * (fr.width + fr.height) :=
    Nat.le_mul_of_pos_right _ (by omega)
  have hc2 : fr.height * fr.width * (fr.width + fr.height) =
      fr.width * fr.height * (fr.width + fr.height) := by ring
  have hx1 : matchCount cfg fr * fr.width ≤ (fr.height * fr.width) * fr.width :=
    Nat.mul_le_mul_right _ hNb
  have hx2 : (fr.height * fr.width) * fr.width ≤ fr.width * fr.height * (fr.width + fr.height) := by
    calc (fr.height * fr.width) * fr.width = fr.width * fr.height * fr.width := by ring
    _ ≤ fr.width * fr.height * (fr.width + fr.height) :=
        Nat.mul_le_mul_left _ (by omega)
  have hy1 : matchCount cfg fr * fr.height ≤ (fr.height * fr.width) * fr.height :=
    Nat.mul_le_mul_right _ hNb
  have hy2 : (fr.height * fr.width) * fr.height ≤ fr.width * fr.height * (fr.width + fr.height) := by
    calc (fr.height * fr.width) * fr.height = fr.width * fr.height * fr.height := by ring
    _ ≤ fr.width * fr.height * (fr.width + fr.height) :=
        Nat.mul_le_mul_left _ (by omega)
  refine ⟨by omega, by omega, by omega⟩

theorem find_target_char (cfg : Config) (fr : Frame)
    (hw : fr.width ≤ 2 ^ 31) (hh : fr.height ≤ 2 ^ 31)
    (hbig : fr.width * fr.height * (fr.width + fr.height) < 2 ^ 63) :
    find_target_hsv cfg fr =
      if 50 < matchCount cfg fr
      then some (((sumX cfg fr / matchCount cfg fr : ℕ) : ℤ),
                 ((sumY cfg fr / matchCount cfg fr : ℕ) : ℤ))
      else none := by
  obtain ⟨hsx, hsy, hc⟩ := count_bounds cfg fr hbig
  have key := scan_sums cfg fr hsx hsy hc
  unfold find_target_hsv
  rw [key]
  dsimp only
  by_cases hcond : 50 < matchCount cfg fr
  · rw [if_pos (show (50:ℤ) < ((matchCount cfg fr : ℕ) : ℤ) by exact_mod_cast hcond), if_pos hcond]
    obtain ⟨hw0, hh0⟩ := width_pos_of_count cfg fr (by omega)
    have hN0 : 0 < matchCount cfg fr := by omega
    have havgx : sumX cfg fr / matchCount cfg fr < fr.width := by
      rw [Nat.div_lt_iff_lt_mul hN0]
      obtain ⟨w', hwE⟩ : ∃ w', fr.width = w' + 1 := ⟨fr.width - 1, by omega⟩
      have hp := sumX_le_pred cfg fr hw0
      rw [hwE] at hp ⊢
      have hAB : matchCount cfg fr * (w' + 1) = matchCount cfg fr * (w' + 1 - 1) + matchCount cfg fr := by
        simp only [Nat.add_sub_cancel]
        ring
      have hcomm : (w' + 1) * matchCount cfg fr = matchCount cfg fr * (w' + 1) := by ring
      omega
    have havgy : sumY cfg fr / matchCount cfg fr < fr.height := by
      rw [Nat.div_lt_iff_lt_mul hN0]
      obtain ⟨h', hhE⟩ : ∃ h', fr.height = h' + 1 := ⟨fr.height - 1, by omega⟩
      have hp := sumY_le_pred cfg fr hh0
      rw [hhE] at hp ⊢
      have hAB : matchCount cfg fr * (h' + 1) = matchCount cfg fr * (h' + 1 - 1) + matchCount cfg fr := by
        simp only [Nat.add_sub_cancel]
        ring
      have hcomm : (h' + 1) * matchCount cfg fr = matchCount cfg fr * (h' + 1) := by ring
      omega
    rw [tdiv_natCast, tdiv_natCast]
    rw [wrap32_id _ (by positivity) (by exact_mod_cast lt_of_lt_of_le havgx hw)]
    rw [wrap32_id _ (by positivity) (by exact_mod_cast lt_of_lt_of_le havgy hh)]
  · rw [if_neg ?_, if_neg hcond]
    intro hq
    exact hcond (by exact_mod_cast hq)

/-! ### issueAll: all-succeed and first-failure characterizations -/

theorem issueAll_allOk (resp : ℕ → Bool) :
    ∀ (cs : List Cmd) (k : ℕ), (∀ j, resp j = true) →
      issueAll resp cs k = (Except.ok (), cs) := by
  intro cs
  induction cs with
  | nil => intro k _; rfl
  | cons c cs ih =>
    intro k hall
    unfold issueAll
    rw [hall k]
    simp only [if_true]
    rw [ih (k + 1) hall]

theorem issueAll_abort (resp : ℕ → Bool) :
    ∀ (cs : List Cmd) (k n : ℕ),
      (∀ j, j < n → resp (k + j) = true) → resp (k + n) = false → n < cs.length →
      issueAll resp cs k = (Except.error (), cs.take (n + 1)) := by
  intro cs
  induction cs with
  | nil =>
    intro k n _ _ hlen
    simp at hlen
  | cons c cs ih =>
    intro k n hpre hfail hlen
    match n with
    | 0 =>
      unfold issueAll
      rw [show k + 0 = k from rfl] at hfail
      rw [hfail]
      rfl
    | m + 1 =>
      have hk : resp k = true := by
        have := hpre 0 (by omega)
        rwa [Nat.add_zero] at this
      have hpre2 : ∀ j, j < m → resp (k + 1 + j) = true := by
        intro j hj
        have := hpre (j + 1) (by omega)
        rwa [show k + (j + 1) = k + 1 + j by omega] at this
      have hfail2 : resp (k + 1 + m) = false := by
        rwa [show k + (m + 1) = k + 1 + m by omega] at hfail
      have hlen2 : m < cs.length := by
        simp only [List.length_cons] at hlen
        omega
      unfold issueAll
      rw [hk]
      simp only [if_true]
      rw [ih (k + 1) m hpre2 hfail2 hlen2]
      rfl

/-- The integer mean of the matched coordinates stays inside the frame. -/
theorem avg_bounds (cfg : Config) (fr : Frame) (hN0 : 0 < matchCount cfg fr) :
    sumX cfg fr / matchCount cfg fr < fr.width ∧
    sumY cfg fr / matchCount cfg fr < fr.height := by
  obtain ⟨hw0, hh0⟩ := width_pos_of_count cfg fr hN0
  constructor
  · rw [Nat.div_lt_iff_lt_mul hN0]
    obtain ⟨w', hwE⟩ : ∃ w', fr.width = w' + 1 := ⟨fr.width - 1, by omega⟩
    have hp := sumX_le_pred cfg fr hw0
    rw [hwE] at hp ⊢
    have hAB : matchCount cfg fr * (w' + 1) = matchCount cfg fr * (w' + 1 - 1) + matchCount cfg fr := by
      simp only [Nat.add_sub_cancel]
      ring
    have hcomm : (w' + 1) * matchCount cfg fr = matchCount cfg fr * (w' + 1) := by ring
    omega
  · rw [Nat.div_lt_iff_lt_mul hN0]
    obtain ⟨h', hhE⟩ : ∃ h', fr.height = h' + 1 := ⟨fr.height - 1, by omega⟩
    have hp := sumY_le_pred cfg fr hh0
    rw [hhE] at hp ⊢
    have hAB : matchCount cfg fr * (h' + 1) = matchCount cfg fr * (h' + 1 - 1) + matchCount cfg fr := by
      simp only [Nat.add_sub_cancel]
      ring
    have hcomm : (h' + 1) * matchCount cfg fr = matchCount cfg fr * (h' + 1) := by ring
    omega

/-! ### Claim theorems -/

/-- C1 (corrected).  `find_target_hsv` returns the integer-truncated mean
`(sum_x / count, sum_y / count)` of the matching-pixel coordinates exactly
when the matching-pixel count strictly exceeds **the hardcoded threshold
50** (`count > 50`, not `>=`), and `None` otherwise — in particular when
zero pixels match.  The minimum-cluster threshold is *not* a parameter of
the contract: the code compares against the literal 50. -/
theorem C1_centroid_threshold (cfg : Config) (fr : Frame)
    (hw : fr.width ≤ 2 ^ 31) (hh : fr.height ≤ 2 ^ 31)
    (hbig : fr.width * fr.height * (fr.width + fr.height) < 2 ^ 63) :
    (find_target_hsv cfg fr =
      if 50 < matchCount cfg fr
      then some (((sumX cfg fr / matchCount cfg fr : ℕ) : ℤ),
                 ((sumY cfg fr / matchCount cfg fr : ℕ) : ℤ))
      else none)
    ∧ (matchCount cfg fr = 0 → find_target_hsv cfg fr = none) := by
  have hchar := find_target_char cfg fr hw hh hbig
  refine ⟨hchar, fun h0 => ?_⟩
  rw [hchar, if_neg (by omega)]

/-- C1 counterexample: a 1×1 frame whose single pixel matches the window
has matching-pixel count 1 > 0, yet detection returns `None` — so no
configurable `min_cluster` parameter below 1 exists; the threshold is the
fixed literal 50. -/
theorem C1_counterexample :
    matchCount cfgAll frame1 = 1 ∧ find_target_hsv cfgAll frame1 = none :=
  ⟨by decide, by decide⟩

theorem C1_witness :
    (frame8.width ≤ 2 ^ 31 ∧ frame8.height ≤ 2 ^ 31 ∧
      frame8.width * frame8.height * (frame8.width + frame8.height) < 2 ^ 63) ∧
    ((find_target_hsv cfgAll frame8 =
      if 50 < matchCount cfgAll frame8
      then some (((sumX cfgAll frame8 / matchCount cfgAll frame8 : ℕ) : ℤ),
                 ((sumY cfgAll frame8 / matchCount cfgAll frame8 : ℕ) : ℤ))
      else none)
    ∧ (matchCount cfgAll frame8 = 0 → find_target_hsv cfgAll frame8 = none)) :=
  ⟨⟨by decide, by decide, by decide⟩,
   C1_centroid_threshold cfgAll frame8 (by decide) (by decide) (by decide)⟩

/-- C10 (confirmed).  Whenever `find_target_hsv` returns `Some (x, y)` on a
frame of width w and height h, the coordinates are in bounds:
`0 ≤ x < w` and `0 ≤ y < h`. -/
theorem C10_centroid_in_bounds (cfg : Config) (fr : Frame) (x y : ℤ)
    (hw : fr.width ≤ 2 ^ 31) (hh : fr.height ≤ 2 ^ 31)
    (hbig : fr.width * fr.height * (fr.width + fr.height) < 2 ^ 63)
    (hsome : find_target_hsv cfg fr = some (x, y)) :
    0 ≤ x ∧ x < (fr.width : ℤ) ∧ 0 ≤ y ∧ y < (fr.height : ℤ) := by
  rw [find_target_char cfg fr hw hh hbig] at hsome
  by_cases hcond : 50 < matchCount cfg fr
  · rw [if_pos hcond] at hsome
    obtain ⟨havx, havy⟩ := avg_bounds cfg fr (by omega)
    simp only [Option.some.injEq, Prod.mk.injEq] at hsome
    obtain ⟨hx, hy⟩ := hsome
    subst hx
    subst hy
    refine ⟨Int.natCast_nonneg _, by exact_mod_cast havx, Int.natCast_nonneg _, by exact_mod_cast havy⟩
  · rw [if_neg hcond] at hsome
    simp at hsome

theorem C10_witness :
    (frame8.width ≤ 2 ^ 31 ∧ frame8.height ≤ 2 ^ 31 ∧
      frame8.width * frame8.height * (frame8.width + frame8.height) < 2 ^ 63 ∧
      find_target_hsv cfgAll frame8 = some (3, 3)) ∧
    (0 ≤ (3:ℤ) ∧ (3:ℤ) < (frame8.width : ℤ) ∧ 0 ≤ (3:ℤ) ∧ (3:ℤ) < (frame8.height : ℤ)) :=
  ⟨⟨by decide, by decide, by decide, by decide⟩,
   C10_centroid_in_bounds cfgAll frame8 3 3 (by decide) (by decide) (by decide) (by decide)⟩

/-! ### Toggle, teardown, construction, and cycle-outcome claims -/

theorem toggle_false_eq (e : Engine) (h : e.toggled = false) :
    toggle e = { e with toggled := true, resumeCount := e.resumeCount + 1 } := by
  unfold toggle
  rw [h]
  rfl

theorem toggle_true_eq (e : Engine) (h : e.toggled = true) :
    toggle e = { e with toggled := false, pauseCount := e.pauseCount + 1 } := by
  unfold toggle
  rw [h]
  rfl

/-- Running any operation sequence never changes the stored config. -/
theorem runOps_config (ops : List Op) : ∀ e : Engine, (runOps e ops).config = e.config := by
  induction ops with
  | nil => intro e; rfl
  | cons op ops ih =>
    intro e
    show (runOps (runOp e op) ops).config = e.config
    rw [ih (runOp e op)]
    cases op with
    | toggleOp =>
      show (toggle e).config = e.config
      unfold toggle
      split <;> rfl
    | closeOp => rfl
    | cycleOp fr? action resp => rfl

/-- C4 (corrected).  `toggle` unconditionally flips the flag, so starting
from the Disabled state two toggle calls in a row leave the engine
**Disabled** again (not Enabled): after n calls the engine is Enabled iff
n is odd.  The resume-per-flip part of the claim holds: across n calls the
frame source receives exactly one resume per actual Disabled-to-Enabled
flip, `(n + 1) / 2` resumes and `n / 2` pauses in total. -/
theorem C4_toggle_flip_resume (e : Engine) (hd : e.toggled = false) (n : ℕ) :
    (((toggleN n e).toggled = true) ↔ n % 2 = 1) ∧
    (toggleN n e).resumeCount = e.resumeCount + (n + 1) / 2 ∧
    (toggleN n e).pauseCount = e.pauseCount + n / 2 := by
  induction n with
  | zero =>
    refine ⟨?_, ?_, ?_⟩
    · rw [show toggleN 0 e = e from rfl, hd]
      decide
    · show e.resumeCount = e.resumeCount + (0 + 1) / 2
      omega
    · show e.pauseCount = e.pauseCount + 0 / 2
      omega
  | succ n ih =>
    obtain ⟨h1, h2, h3⟩ := ih
    by_cases hn : n % 2 = 1
    · have ht : (toggleN n e).toggled = true := h1.mpr hn
      rw [show toggleN (n + 1) e = toggle (toggleN n e) from rfl, toggle_true_eq _ ht]
      refine ⟨?_, ?_, ?_⟩
      · show false = true ↔ (n + 1) % 2 = 1
        exact ⟨fun h => absurd h (by decide), fun h => absurd h (by omega)⟩
      · show (toggleN n e).resumeCount = e.resumeCount + (n + 1 + 1) / 2
        rw [h2]
        omega
      · show (toggleN n e).pauseCount + 1 = e.pauseCount + (n + 1) / 2
        rw [h3]
        omega
    · have ht : (toggleN n e).toggled = false := by
        cases hb : (toggleN n e).toggled
        · rfl
        · exact absurd (h1.mp hb) hn
      rw [show toggleN (n + 1) e = toggle (toggleN n e) from rfl, toggle_false_eq _ ht]
      refine ⟨?_, ?_, ?_⟩
      · show true = true ↔ (n + 1) % 2 = 1
        exact ⟨fun _ => by omega, fun _ => rfl⟩
      · show (toggleN n e).resumeCount + 1 = e.resumeCount + (n + 1 + 1) / 2
        rw [h2]
        omega
      · show (toggleN n e).pauseCount = e.pauseCount + (n + 1) / 2
        rw [h3]
        omega

/-- C4 counterexample: two toggle calls from a freshly constructed
(Disabled) engine leave it Disabled, not Enabled; one resume and one
pause were issued. -/
theorem C4_counterexample :
    (toggleN 2 (ColorantEngine.new (fun _ _ => F32.z) cfgAll)).toggled = false ∧
    (toggleN 2 (ColorantEngine.new (fun _ _ => F32.z) cfgAll)).resumeCount = 1 ∧
    (toggleN 2 (ColorantEngine.new (fun _ _ => F32.z) cfgAll)).pauseCount = 1 :=
  ⟨rfl, rfl, rfl⟩

theorem C4_witness :
    ((ColorantEngine.new (fun _ _ => F32.z) cfgAll).toggled = false) ∧
    ((((toggleN 3 (ColorantEngine.new (fun _ _ => F32.z) cfgAll)).toggled = true) ↔ 3 % 2 = 1) ∧
     (toggleN 3 (ColorantEngine.new (fun _ _ => F32.z) cfgAll)).resumeCount =
       (ColorantEngine.new (fun _ _ => F32.z) cfgAll).resumeCount + (3 + 1) / 2 ∧
     (toggleN 3 (ColorantEngine.new (fun _ _ => F32.z) cfgAll)).pauseCount =
       (ColorantEngine.new (fun _ _ => F32.z) cfgAll).pauseCount + 3 / 2) :=
  ⟨rfl, C4_toggle_flip_resume (ColorantEngine.new (fun _ _ => F32.z) cfgAll) rfl 3⟩

/-- C6 (corrected).  `close` is *not* guarded and `Drop` calls it again:
destruction alone, or an explicit `close` alone, stops the capture and
closes the device exactly once; but an explicit `close` followed by the
inevitable destruction calls stop and close **twice** each over the
engine's lifetime. -/
theorem C6_teardown_counts (powf : F32 → F32 → F32) (cfg : Config) :
    (dropEngine (ColorantEngine.new powf cfg)).stopCount = 1 ∧
    (dropEngine (ColorantEngine.new powf cfg)).closeCount = 1 ∧
    (close (ColorantEngine.new powf cfg)).stopCount = 1 ∧
    (close (ColorantEngine.new powf cfg)).closeCount = 1 ∧
    (dropEngine (close (ColorantEngine.new powf cfg))).stopCount = 2 ∧
    (dropEngine (close (ColorantEngine.new powf cfg))).closeCount = 2 :=
  ⟨rfl, rfl, rfl, rfl, rfl, rfl⟩

/-- C6 counterexample: explicit shutdown followed by destruction double-calls
stop and close (2 each, not exactly once). -/
theorem C6_counterexample :
    (dropEngine (close (ColorantEngine.new (fun _ _ => F32.z) cfgAll))).stopCount = 2 ∧
    (dropEngine (close (ColorantEngine.new (fun _ _ => F32.z) cfgAll))).closeCount = 2 :=
  ⟨rfl, rfl⟩

/-- C7 (confirmed).  A cycle returns Ok with no device command when the
engine is disabled (no frame requested), when no frame arrives, and when
no target is detected; none is an error. -/
theorem C7_quiet_cycles (cfg : Config) (fr? : Option Frame) (action : Action)
    (resp : ℕ → Bool) (fr : Frame)
    (hdet : find_target_hsv cfg fr = none) :
    process_action cfg false fr? action resp = ⟨Except.ok (), [], false⟩ ∧
    process_action cfg true none action resp = ⟨Except.ok (), [], true⟩ ∧
    process_action cfg true (some fr) action resp = ⟨Except.ok (), [], true⟩ := by
  refine ⟨rfl, rfl, ?_⟩
  have hred : process_action cfg true (some fr) action resp =
      (match find_target_hsv cfg fr with
       | none => ⟨Except.ok (), [], true⟩
       | some (tx, ty) =>
         ⟨(issueAll resp (plannedCmds cfg action tx ty) 0).1,
          (issueAll resp (plannedCmds cfg action tx ty) 0).2, true⟩) := rfl
  rw [hred, hdet]

theorem C7_witness :
    find_target_hsv cfgNone frame1 = none ∧
    (process_action cfgNone false (some frame1) Action.Click (fun _ => true) =
        ⟨Except.ok (), [], false⟩ ∧
     process_action cfgNone true none Action.Click (fun _ => true) =
        ⟨Except.ok (), [], true⟩ ∧
     process_action cfgNone true (some frame1) Action.Click (fun _ => true) =
        ⟨Except.ok (), [], true⟩) :=
  ⟨by decide,
   C7_quiet_cycles cfgNone (some frame1) Action.Click (fun _ => true) frame1 (by decide)⟩

/-- C8 (confirmed).  If the device rejects the (n+1)-st command of a
cycle's action sequence, the cycle returns that error immediately: exactly
the first n+1 planned commands were attempted (the failing one last) and
none of the remaining commands — e.g. a flick's restoring move after a
failed click — is issued or retried. -/
theorem C8_abort_on_error (cfg : Config) (fr : Frame) (action : Action)
    (resp : ℕ → Bool) (tx ty : ℤ) (n : ℕ)
    (hdet : find_target_hsv cfg fr = some (tx, ty))
    (hpre : ∀ j, j < n → resp j = true) (hfail : resp n = false)
    (hlen : n < (plannedCmds cfg action tx ty).length) :
    process_action cfg true (some fr) action resp =
      ⟨Except.error (), (plannedCmds cfg action tx ty).take (n + 1), true⟩ := by
  have hred : process_action cfg true (some fr) action resp =
      (match find_target_hsv cfg fr with
       | none => ⟨Except.ok (), [], true⟩
       | some (tx, ty) =>
         ⟨(issueAll resp (plannedCmds cfg action tx ty) 0).1,
          (issueAll resp (plannedCmds cfg action tx ty) 0).2, true⟩) := rfl
  rw [hred, hdet]
  have h := issueAll_abort resp (plannedCmds cfg action tx ty) 0 n
    (by intro j hj; rw [Nat.zero_add]; exact hpre j hj)
    (by rw [Nat.zero_add]; exact hfail) hlen
  show (⟨(issueAll resp (plannedCmds cfg action tx ty) 0).1,
         (issueAll resp (plannedCmds cfg action tx ty) 0).2, true⟩ : CycleResult) = _
  rw [h]

theorem C8_witness :
    (find_target_hsv cfgAll frame8 = some (3, 3) ∧
     (fun k => decide (k = 0)) 1 = false ∧
     1 < (plannedCmds cfgAll Action.Flick 3 3).length) ∧
    process_action cfgAll true (some frame8) Action.Flick (fun k => decide (k = 0)) =
      ⟨Except.error (), (plannedCmds cfgAll Action.Flick 3 3).take 2, true⟩ :=
  ⟨⟨by decide, rfl, by decide⟩,
   C8_abort_on_error cfgAll frame8 Action.Flick (fun k => decide (k = 0)) 3 3 1
     (by decide)
     (fun j hj => by
       have hj0 : j = 0 := by omega
       rw [hj0]
       rfl)
     rfl (by decide)⟩

/-- C9 (confirmed).  At construction, if either speed is the 0.0 sentinel
(f32 `==`) the speeds are derived from the sensitivity by
`flick_speed = 1.07437623 * sensitivity.powf(-0.9936827126)` and
`move_speed = 1 / (10 * sensitivity)`; if both are nonzero the
caller-supplied config is stored verbatim; and no subsequent operation
(toggle, cycle, shutdown) ever mutates the stored config. -/
theorem C9_speed_derivation (powf : F32 → F32 → F32) (cfg : Config) :
    ((F32.beqv cfg.move_speed F32.z = true ∨ F32.beqv cfg.flick_speed F32.z = true) →
      (ColorantEngine.new powf cfg).config =
        { cfg with
          flick_speed := F32.mul flickConstA (powf cfg.ingame_sensitivity flickConstB),
          move_speed := F32.div (F32.ofIntR 1) (F32.mul (F32.ofIntR 10) cfg.ingame_sensitivity) }) ∧
    (F32.beqv cfg.move_speed F32.z = false → F32.beqv cfg.flick_speed F32.z = false →
      (ColorantEngine.new powf cfg).config = cfg) ∧
    (∀ ops : List Op, (runOps (ColorantEngine.new powf cfg) ops).config =
      (ColorantEngine.new powf cfg).config) := by
  refine ⟨?_, ?_, fun ops => runOps_config ops _⟩
  · intro h
    show (if F32.beqv cfg.move_speed F32.z || F32.beqv cfg.flick_speed F32.z
          then calculate_speeds powf cfg else cfg) = _
    have hc : (F32.beqv cfg.move_speed F32.z || F32.beqv cfg.flick_speed F32.z) = true := by
      rcases h with h | h <;> simp [h]
    rw [hc]
    rfl
  · intro h1 h2
    show (if F32.beqv cfg.move_speed F32.z || F32.beqv cfg.flick_speed F32.z
          then calculate_speeds powf cfg else cfg) = cfg
    rw [h1, h2]
    rfl

theorem C9_witness :
    (F32.beqv ({ cfgAll with move_speed := F32.z } : Config).move_speed F32.z = true ∨
       F32.beqv ({ cfgAll with move_speed := F32.z } : Config).flick_speed F32.z = true) ∧
    (ColorantEngine.new (fun _ _ => F32.z) { cfgAll with move_speed := F32.z }).config =
      { ({ cfgAll with move_speed := F32.z } : Config) with
        flick_speed := F32.mul flickConstA
          ((fun _ _ => F32.z) ({ cfgAll with move_speed := F32.z } : Config).ingame_sensitivity flickConstB),
        move_speed := F32.div (F32.ofIntR 1)
          (F32.mul (F32.ofIntR 10) ({ cfgAll with move_speed := F32.z } : Config).ingame_sensitivity) } ∧
    (F32.beqv cfgAll.move_speed F32.z = false ∧ F32.beqv cfgAll.flick_speed F32.z = false) ∧
    (ColorantEngine.new (fun _ _ => F32.z) cfgAll).config = cfgAll ∧
    (runOps (ColorantEngine.new (fun _ _ => F32.z) cfgAll) [Op.toggleOp, Op.closeOp]).config =
      (ColorantEngine.new (fun _ _ => F32.z) cfgAll).config :=
  ⟨Or.inl (by decide),
   (C9_speed_derivation (fun _ _ => F32.z) { cfgAll with move_speed := F32.z }).1 (Or.inl (by decide)),
   ⟨by decide, by decide⟩,
   (C9_speed_derivation (fun _ _ => F32.z) cfgAll).2.1 (by decide) (by decide),
   (C9_speed_derivation (fun _ _ => F32.z) cfgAll).2.2 [Op.toggleOp, Op.closeOp]⟩

/-- C2 (confirmed).  For an in-range detected centroid, a Click cycle
issues the single click command iff |x - fov_w/2| ≤ 4 and |y - fov_h/2| ≤ 10
(exact rational values; the f32 computation is exact in this range), and
otherwise issues nothing. -/
theorem C2_click_tolerance (cfg : Config) (tx ty : ℤ)
    (htx0 : 0 ≤ tx) (htx : tx < 2 ^ 23) (hty0 : 0 ≤ ty) (hty : ty < 2 ^ 23)
    (hxf : cfg.x_fov ≤ 2 ^ 23) (hyf : cfg.y_fov ≤ 2 ^ 23) :
    (plannedCmds cfg Action.Click tx ty = [Cmd.clickCmd] ↔
      |(tx:ℚ) - (cfg.x_fov:ℚ) / 2| ≤ 4 ∧ |(ty:ℚ) - (cfg.y_fov:ℚ) / 2| ≤ 10) ∧
    (plannedCmds cfg Action.Click tx ty = [Cmd.clickCmd] ∨
      plannedCmds cfg Action.Click tx ty = []) := by
  have hxd : (xdiff cfg tx).val = (tx:ℚ) - (cfg.x_fov:ℚ) / 2 := by
    have h := sub_int_half_val tx (cfg.x_fov : ℤ) htx0 htx (Int.natCast_nonneg _)
      (by exact_mod_cast hxf)
    unfold xdiff
    rw [h]
    push_cast
    ring
  have hyd : (ydiff cfg ty).val = (ty:ℚ) - (cfg.y_fov:ℚ) / 2 := by
    have h := sub_int_half_val ty (cfg.y_fov : ℤ) hty0 hty (Int.natCast_nonneg _)
      (by exact_mod_cast hyf)
    unfold ydiff
    rw [h]
    push_cast
    ring
  have hcond : (F32.le (F32.abs (xdiff cfg tx)) (F32.ofIntR 4) &&
      F32.le (F32.abs (ydiff cfg ty)) (F32.ofIntR 10)) = true ↔
      (|(tx:ℚ) - (cfg.x_fov:ℚ) / 2| ≤ 4 ∧ |(ty:ℚ) - (cfg.y_fov:ℚ) / 2| ≤ 10) := by
    rw [Bool.and_eq_true, F32.le_val, F32.le_val, F32.abs_val, F32.abs_val, hxd, hyd,
        ofIntR_val_small 4 (by norm_num), ofIntR_val_small 10 (by norm_num)]
    norm_num
  have hpc : plannedCmds cfg Action.Click tx ty =
      (if F32.le (F32.abs (xdiff cfg tx)) (F32.ofIntR 4) &&
          F32.le (F32.abs (ydiff cfg ty)) (F32.ofIntR 10)
       then [Cmd.clickCmd] else []) := rfl
  constructor
  · rw [hpc]
    constructor
    · intro h
      by_cases hb : (F32.le (F32.abs (xdiff cfg tx)) (F32.ofIntR 4) &&
          F32.le (F32.abs (ydiff cfg ty)) (F32.ofIntR 10)) = true
      · exact hcond.mp hb
      · rw [if_neg hb] at h
        exact absurd h (by simp)
    · intro h
      rw [if_pos (hcond.mpr h)]
  · rw [hpc]
    by_cases hb : (F32.le (F32.abs (xdiff cfg tx)) (F32.ofIntR 4) &&
        F32.le (F32.abs (ydiff cfg ty)) (F32.ofIntR 10)) = true
    · exact Or.inl (by rw [if_pos hb])
    · exact Or.inr (by rw [if_neg hb])

theorem C2_witness :
    (0 ≤ (8:ℤ) ∧ (8:ℤ) < 2 ^ 23 ∧ 0 ≤ (14:ℤ) ∧ (14:ℤ) < 2 ^ 23 ∧
      cfgAll.x_fov ≤ 2 ^ 23 ∧ cfgAll.y_fov ≤ 2 ^ 23) ∧
    ((plannedCmds cfgAll Action.Click 8 14 = [Cmd.clickCmd] ↔
       |((8:ℤ):ℚ) - (cfgAll.x_fov:ℚ) / 2| ≤ 4 ∧ |((14:ℤ):ℚ) - (cfgAll.y_fov:ℚ) / 2| ≤ 10) ∧
     (plannedCmds cfgAll Action.Click 8 14 = [Cmd.clickCmd] ∨
       plannedCmds cfgAll Action.Click 8 14 = [])) :=
  ⟨⟨by decide, by decide, by decide, by decide, by decide, by decide⟩,
   C2_click_tolerance cfgAll 8 14 (by decide) (by decide) (by decide) (by decide)
     (by decide) (by decide)⟩

/-! ### Flick: the restoring displacement is the hardcoded half -/

theorem fHalf_val : fHalf.val = (2:ℚ) ^ (-1 : ℤ) := by
  unfold fHalf F32.val
  norm_num

/-- Multiplying the negation of a normal-range f32 by 0.5 is exact. -/
theorem halving_exact (a : F32) (hm0 : a.m ≠ 0) (hmsz : a.m.natAbs < 2 ^ 24)
    (he1 : -400 ≤ a.e) (he2 : a.e ≤ 400) :
    (F32.mul a.neg fHalf).val = -a.val / 2 := by
  have hrep : a.neg.val * fHalf.val = ((-a.m : ℤ) : ℚ) * 2 ^ (a.e - 1) := by
    rw [F32.neg_val, fHalf_val]
    unfold F32.val
    push_cast
    rw [show a.e - 1 = a.e + (-1) by ring, zpow_add₀ (two_ne_zero : (2:ℚ) ≠ 0)]
    ring
  have hu : (-a.m : ℤ) ≠ 0 := by omega
  have husz : (-a.m : ℤ).natAbs < 2 ^ 24 := by omega
  obtain ⟨hlo, hhi⟩ := dyadic_range (-a.m) (a.e - 1) hu husz (by omega) (by omega)
  rw [mul_exact a.neg fHalf (-a.m) (a.e - 1) hrep hu husz (by rw [hrep]; exact hlo)
    (by rw [hrep]; exact hhi), F32.neg_val, fHalf_val, zpow_neg_one]
  ring

/-- C3 (corrected).  A Flick cycle plans exactly three device commands in
order — the displacement `(dx * flick_speed, dy * flick_speed)`, a click,
and a restoring displacement — but the restoring displacement is **not** a
configurable gain: the code hardcodes the half-magnitude inverse, sending
exactly minus one half of each flick component (the f32 multiplication by
0.5 being exact for normal-range values). -/
theorem C3_flick_half_restore (cfg : Config) (tx ty : ℤ)
    (hxm : (F32.mul (xdiff cfg tx) cfg.flick_speed).m ≠ 0)
    (hxs : (F32.mul (xdiff cfg tx) cfg.flick_speed).m.natAbs < 2 ^ 24)
    (hxe1 : -400 ≤ (F32.mul (xdiff cfg tx) cfg.flick_speed).e)
    (hxe2 : (F32.mul (xdiff cfg tx) cfg.flick_speed).e ≤ 400)
    (hym : (F32.mul (ydiff cfg ty) cfg.flick_speed).m ≠ 0)
    (hys : (F32.mul (ydiff cfg ty) cfg.flick_speed).m.natAbs < 2 ^ 24)
    (hye1 : -400 ≤ (F32.mul (ydiff cfg ty) cfg.flick_speed).e)
    (hye2 : (F32.mul (ydiff cfg ty) cfg.flick_speed).e ≤ 400) :
    plannedCmds cfg Action.Flick tx ty =
      [Cmd.flickCmd (F32.mul (xdiff cfg tx) cfg.flick_speed)
         (F32.mul (ydiff cfg ty) cfg.flick_speed),
       Cmd.clickCmd,
       Cmd.flickCmd (F32.mul (F32.mul (xdiff cfg tx) cfg.flick_speed).neg fHalf)
         (F32.mul (F32.mul (ydiff cfg ty) cfg.flick_speed).neg fHalf)] ∧
    (F32.mul (F32.mul (xdiff cfg tx) cfg.flick_speed).neg fHalf).val =
      -(F32.mul (xdiff cfg tx) cfg.flick_speed).val / 2 ∧
    (F32.mul (F32.mul (ydiff cfg ty) cfg.flick_speed).neg fHalf).val =
      -(F32.mul (ydiff cfg ty) cfg.flick_speed).val / 2 :=
  ⟨rfl, halving_exact _ hxm hxs hxe1 hxe2, halving_exact _ hym hys hye1 hye2⟩

/-- C3 counterexample: on a concrete detection the restoring displacement is
the half-magnitude value ⟨1,-1⟩ (0.5), not the exact inverse ⟨1,0⟩ of the
flick component ⟨-1,0⟩ — and no configuration field controls this choice,
the constant 0.5 being baked into the command sequence. -/
theorem C3_counterexample :
    plannedCmds cfgAll Action.Flick 3 3 =
      [Cmd.flickCmd ⟨-1, 0⟩ ⟨-1, 0⟩, Cmd.clickCmd, Cmd.flickCmd ⟨1, -1⟩ ⟨1, -1⟩] ∧
    (⟨1, -1⟩ : F32) ≠ (⟨-1, 0⟩ : F32).neg :=
  ⟨by decide, by decide⟩

theorem C3_witness :
    ((F32.mul (xdiff cfgAll 3) cfgAll.flick_speed).m ≠ 0 ∧
     (F32.mul (xdiff cfgAll 3) cfgAll.flick_speed).m.natAbs < 2 ^ 24 ∧
     -400 ≤ (F32.mul (xdiff cfgAll 3) cfgAll.flick_speed).e ∧
     (F32.mul (xdiff cfgAll 3) cfgAll.flick_speed).e ≤ 400) ∧
    (plannedCmds cfgAll Action.Flick 3 3 =
      [Cmd.flickCmd (F32.mul (xdiff cfgAll 3) cfgAll.flick_speed)
         (F32.mul (ydiff cfgAll 3) cfgAll.flick_speed),
       Cmd.clickCmd,
       Cmd.flickCmd (F32.mul (F32.mul (xdiff cfgAll 3) cfgAll.flick_speed).neg fHalf)
         (F32.mul (F32.mul (ydiff cfgAll 3) cfgAll.flick_speed).neg fHalf)] ∧
     (F32.mul (F32.mul (xdiff cfgAll 3) cfgAll.flick_speed).neg fHalf).val =
       -(F32.mul (xdiff cfgAll 3) cfgAll.flick_speed).val / 2 ∧
     (F32.mul (F32.mul (ydiff cfgAll 3) cfgAll.flick_speed).neg fHalf).val =
       -(F32.mul (ydiff cfgAll 3) cfgAll.flick_speed).val / 2) :=
  ⟨⟨by decide, by decide, by decide, by decide⟩,
   C3_flick_half_restore cfgAll 3 3 (by decide) (by decide) (by decide) (by decide)
     (by decide) (by decide) (by decide) (by decide)⟩

/-! ### HSV conversion: value, saturation, and truncation semantics -/

/-- Scaling a channel back by 255 and truncating recovers the byte. -/
theorem chan_roundtrip : ∀ c : ℕ, c < 256 →
    F32.toU8sat (F32.mul (chan c) (F32.ofIntR 255)) = c := by decide

theorem floor_int_div_pow (m : ℤ) (k : ℕ) : ⌊(m:ℚ) / (2 ^ k : ℚ)⌋ = m / 2 ^ k := by
  have hpos : (0:ℚ) < (2:ℚ) ^ k := by positivity
  have h1 := Int.ediv_add_emod m (2 ^ k)
  have h2 := Int.emod_nonneg m (show ((2:ℤ) ^ k) ≠ 0 by positivity)
  have h3 := Int.emod_lt_of_pos m (show (0:ℤ) < 2 ^ k by positivity)
  rw [Int.floor_eq_iff]
  constructor
  · rw [le_div_iff hpos]
    have hgoal : (m / 2 ^ k) * 2 ^ k ≤ m := by
      have hcomm : (m / 2 ^ k) * 2 ^ k = 2 ^ k * (m / 2 ^ k) := by ring
      omega
    exact_mod_cast hgoal
  · rw [div_lt_iff hpos]
    have hgoal : m < (m / 2 ^ k + 1) * 2 ^ k := by
      have hexp : (m / 2 ^ k + 1) * 2 ^ k = 2 ^ k * (m / 2 ^ k) + 2 ^ k := by ring
      omega
    exact_mod_cast hgoal

/-- The `as u8` conversion truncates toward zero (floor on nonnegative
values) with saturation at 255 — it never rounds. -/
theorem toU8sat_floor (a : F32) (hm : 0 ≤ a.m) :
    (F32.toU8sat a : ℤ) = min 255 ⌊a.val⌋ := by
  unfold F32.toU8sat F32.val
  rw [if_neg (by omega)]
  split_ifs with he
  · have hfl : ⌊(a.m:ℚ) * 2 ^ a.e⌋ = a.m * 2 ^ a.e.toNat := by
      rw [show ((a.m:ℚ) * 2 ^ a.e) = ((a.m * 2 ^ a.e.toNat : ℤ) : ℚ) by
        push_cast
        rw [← zpow_natCast (2:ℚ) a.e.toNat, Int.toNat_of_nonneg he]]
      exact Int.floor_intCast _
    have hnn : 0 ≤ a.m * 2 ^ a.e.toNat := mul_nonneg hm (by positivity)
    rw [hfl, Int.toNat_of_nonneg (by omega)]
  · have hfl : ⌊(a.m:ℚ) * 2 ^ a.e⌋ = a.m / 2 ^ (-a.e).toNat := by
      rw [show ((a.m:ℚ) * 2 ^ a.e) = (a.m:ℚ) / 2 ^ (-a.e).toNat by
        rw [← zpow_natCast (2:ℚ) (-a.e).toNat, Int.toNat_of_nonneg (by omega : (0:ℤ) ≤ -a.e),
          zpow_neg, div_eq_mul_inv, inv_inv]]
      exact floor_int_div_pow a.m (-a.e).toNat
    have hnn : 0 ≤ a.m / 2 ^ (-a.e).toNat := Int.ediv_nonneg hm (by positivity)
    rw [hfl, Int.toNat_of_nonneg (by omega)]

/-- The code's zero test on the f32 max channel is the integer test. -/
theorem lt_z_chan (M : ℕ) (hM : M ≤ 255) : F32.lt F32.z (chan M) = true ↔ 0 < M := by
  rw [F32.lt_val]
  have hz : F32.z.val = 0 := by
    unfold F32.z F32.val
    norm_num
  rw [hz]
  constructor
  · intro h
    by_contra h0
    push_neg at h0
    have hM0 : M = 0 := by omega
    rw [hM0, chan_zero] at h
    unfold F32.val at h
    norm_num at h
  · intro h
    exact chan_pos_val M h hM

/-- C5 (corrected).  For every byte triple, the value channel equals the
integer maximum channel (so the spec's `v = round(max * 255)` holds, the
value being exactly representable); the saturation is computed from the
integer max and min channels and — like every `as u8` conversion in this
function, including the final `h / 2` — is **truncated toward zero
(floored), not rounded**: `toU8sat` takes the floor, so
`s = round(delta / max * 255)` fails (e.g. at (7,3,3)). -/
theorem C5_hsv_trunc (r g b : ℕ) (hr : r < 256) (hg : g < 256) (hb : b < 256) :
    (rgb_to_hsv_opencv r g b).2.2 = max r (max g b) ∧
    (rgb_to_hsv_opencv r g b).2.1 =
      (if 0 < max r (max g b) then
        F32.toU8sat (F32.mul (F32.div (F32.sub (chan (max r (max g b)))
          (chan (min r (min g b)))) (chan (max r (max g b)))) (F32.ofIntR 255))
       else 0) ∧
    (rgb_to_hsv_opencv r g b).1 =
      F32.toU8sat (F32.div (hueRawF32 r g b) (F32.ofIntR 2)) ∧
    (∀ a : F32, 0 ≤ a.m → (F32.toU8sat a : ℤ) = min 255 ⌊a.val⌋) := by
  have hM : max r (max g b) ≤ 255 := by omega
  have hmx : F32.maxv (chan r) (F32.maxv (chan g) (chan b)) = chan (max r (max g b)) := by
    rw [maxv_chan g b (by omega) (by omega), maxv_chan r (max g b) (by omega) (by omega)]
  have hmn : F32.minv (chan r) (F32.minv (chan g) (chan b)) = chan (min r (min g b)) := by
    rw [minv_chan g b (by omega) (by omega), minv_chan r (min g b) (by omega) (by omega)]
  have hred : rgb_to_hsv_opencv r g b =
      (F32.toU8sat (F32.div (hueRawF32 r g b) (F32.ofIntR 2)),
       (if F32.lt F32.z (F32.maxv (chan r) (F32.maxv (chan g) (chan b))) then
          F32.toU8sat (F32.mul (F32.div
            (F32.sub (F32.maxv (chan r) (F32.maxv (chan g) (chan b)))
                     (F32.minv (chan r) (F32.minv (chan g) (chan b))))
            (F32.maxv (chan r) (F32.maxv (chan g) (chan b)))) (F32.ofIntR 255))
        else 0),
       F32.toU8sat (F32.mul (F32.maxv (chan r) (F32.maxv (chan g) (chan b)))
         (F32.ofIntR 255))) := rfl
  rw [hred, hmx, hmn]
  dsimp only
  refine ⟨chan_roundtrip _ (by omega), ?_, rfl, fun a ha => toU8sat_floor a ha⟩
  by_cases h0 : 0 < max r (max g b)
  · rw [if_pos ((lt_z_chan _ hM).mpr h0), if_pos h0]
  · rw [if_neg (fun hc => h0 ((lt_z_chan _ hM).mp hc)), if_neg h0]

/-- C5 counterexample: at (r,g,b) = (7,3,3) the code outputs s = 145 (the
truncation of 255·4/7 ≈ 145.71), while the spec's
`s = round(delta / max * 255)` gives 146. -/
theorem C5_counterexample :
    (rgb_to_hsv_opencv 7 3 3).2.1 = 145 ∧ s_round_spec 7 3 3 = 146 := by
  refine ⟨by decide, ?_⟩
  unfold s_round_spec
  rw [if_pos (by norm_num [max_def])]
  rw [round_eq, Int.floor_eq_iff]
  constructor <;> norm_num [max_def, min_def]

theorem C5_witness :
    ((7:ℕ) < 256 ∧ (3:ℕ) < 256) ∧
    ((rgb_to_hsv_opencv 7 3 3).2.2 = max 7 (max 3 3) ∧
     (rgb_to_hsv_opencv 7 3 3).2.1 =
       (if 0 < max 7 (max 3 3) then
         F32.toU8sat (F32.mul (F32.div (F32.sub (chan (max 7 (max 3 3)))
           (chan (min 7 (min 3 3)))) (chan (max 7 (max 3 3)))) (F32.ofIntR 255))
        else 0) ∧
     (rgb_to_hsv_opencv 7 3 3).1 =
       F32.toU8sat (F32.div (hueRawF32 7 3 3) (F32.ofIntR 2)) ∧
     (∀ a : F32, 0 ≤ a.m → (F32.toU8sat a : ℤ) = min 255 ⌊a.val⌋)) :=
  ⟨⟨by decide, by decide⟩, C5_hsv_trunc 7 3 3 (by decide) (by decide) (by decide)⟩

end Colorant
